import Mathlib

/-!
# Template catalog and combination engine of apimgr/gitignore

A shallow embedding of `src/templates/data.go`: the `Template` record, the
`Manager` with its two indexes, the loader callback, `Get`, `Combine`, the
listing operations, `Search` and `Stats`, with the Go library functions they
call.  `buildURL` of `src/server/url_detection.go` and the settings
operations of `src/database/database.go` follow the catalog.

Conventions of the embedding.

* A Go `string` is a Lean `String`, read as its sequence of runes (the text is
  taken to be valid UTF-8).
* `unicode.ToLower` and `unicode.ToUpper` are not reproduced: every definition
  that lowercases takes the rune mapping as its first argument (`lower`), and
  the theorems hold for every such mapping.  `latinLower` and `latinUpper` give
  the two tables on the Basic Latin and Latin-1 blocks, for evaluation.
* A Go `map` is an association list with unique keys; `mapGet` is the read
  `m[k]` and `mapSet` the write `m[k] = v`.
* A `(value, error)` result is a pair whose second component is `none` for a
  `nil` error and `some msg` for the error made by `fmt.Errorf`.
* `strings.Builder` is the text written so far.
-/

namespace Gitignore

/-! ## Go library functions -/

/-- Go `strings.ToLower` on valid UTF-8: the rune mapping applied to every rune. -/
def ToLower (lower : Char → Char) (s : String) : String :=
  ⟨s.data.map lower⟩

/-- Go `strings.ToUpper` on valid UTF-8: the rune mapping applied to every rune. -/
def ToUpper (upper : Char → Char) (s : String) : String :=
  ⟨s.data.map upper⟩

/-- Go `unicode.ToLower` on U+0000..U+00FF, and on the two runes outside that
block that `unicode.ToUpper` reaches from it (U+039C, U+0178); other runes are
left as they are. -/
def latinLower (c : Char) : Char :=
  let n := c.toNat
  if 0x41 ≤ n ∧ n ≤ 0x5A then Char.ofNat (n + 32)
  else if 0xC0 ≤ n ∧ n ≤ 0xDE ∧ n ≠ 0xD7 then Char.ofNat (n + 32)
  else if n = 0x39C then Char.ofNat 0x3BC
  else if n = 0x178 then Char.ofNat 0xFF
  else c

/-- Go `unicode.ToUpper` on U+0000..U+00FF; other runes are left as they are.
The micro sign U+00B5 maps to the Greek capital mu U+039C and U+00FF to U+0178. -/
def latinUpper (c : Char) : Char :=
  let n := c.toNat
  if 0x61 ≤ n ∧ n ≤ 0x7A then Char.ofNat (n - 32)
  else if 0xE0 ≤ n ∧ n ≤ 0xFE ∧ n ≠ 0xF7 then Char.ofNat (n - 32)
  else if n = 0xB5 then Char.ofNat 0x39C
  else if n = 0xFF then Char.ofNat 0x178
  else c

/-- Go `unicode.IsSpace`: the Latin-1 spaces and the runes of category Z. -/
def isSpace (c : Char) : Bool :=
  let n := c.toNat
  n = 0x09 || n = 0x0A || n = 0x0B || n = 0x0C || n = 0x0D || n = 0x20 ||
  n = 0x85 || n = 0xA0 || n = 0x1680 || (0x2000 ≤ n && n ≤ 0x200A) ||
  n = 0x2028 || n = 0x2029 || n = 0x202F || n = 0x205F || n = 0x3000

/-- Go `strings.TrimSpace`: leading and trailing white space removed. -/
def TrimSpace (s : String) : String :=
  ⟨((s.data.dropWhile isSpace).reverse.dropWhile isSpace).reverse⟩

/-- Go `strings.HasPrefix`. -/
def HasPrefix (s pre : String) : Bool :=
  pre.data.isPrefixOf s.data

/-- Go `strings.HasSuffix`. -/
def HasSuffix (s suf : String) : Bool :=
  suf.data.isSuffixOf s.data

/-- Go `strings.TrimSuffix`. -/
def TrimSuffix (s suf : String) : String :=
  if HasSuffix s suf then ⟨s.data.take (s.data.length - suf.data.length)⟩ else s

/-- Go `strings.TrimPrefix`. -/
def TrimPrefix (s pre : String) : String :=
  if HasPrefix s pre then ⟨s.data.drop pre.data.length⟩ else s

/-- The pieces of a rune sequence between occurrences of the rune `sep`. -/
def splitRunes (sep : Char) : List Char → List (List Char)
  | [] => [[]]
  | c :: cs =>
    if c = sep then [] :: splitRunes sep cs
    else
      match splitRunes sep cs with
      | [] => [[c]]
      | piece :: pieces => (c :: piece) :: pieces

/-- Go `strings.Split(s, sep)` for a separator of one rune (the source splits
on "\n" and on "/" only). -/
def Split (s : String) (sep : Char) : List String :=
  (splitRunes sep s.data).map String.mk

/-- Go `strings.Contains`. -/
def Contains (s sub : String) : Bool :=
  s.data.tails.any (fun t => sub.data.isPrefixOf t)

/-- Go `strings.Join`. -/
def Join : List String → String → String
  | [], _ => ""
  | [a], _ => a
  | a :: b :: rest, sep => a ++ sep ++ Join (b :: rest) sep

/-- Go `filepath.Base` with the separator '/': the last element of the path,
trailing slashes removed first; "." for the empty path and "/" for a path of
slashes only. -/
def Base (path : String) : String :=
  if path = "" then "."
  else
    let stripped := path.data.reverse.dropWhile (fun c => c = '/')
    let last := (stripped.takeWhile (fun c => c ≠ '/')).reverse
    if last = [] then "/" else ⟨last⟩

/-! ## Go maps -/

/-- The read `m[k]` of a Go map. -/
def mapGet {α : Type} (m : List (String × α)) (k : String) : Option α :=
  match m with
  | [] => none
  | (k', v) :: rest => if k' = k then some v else mapGet rest k

/-- The write `m[k] = v` of a Go map: the value under an existing key is
replaced, a new key is added. -/
def mapSet {α : Type} (m : List (String × α)) (k : String) (v : α) : List (String × α) :=
  match m with
  | [] => [(k, v)]
  | (k', v') :: rest => if k' = k then (k, v) :: rest else (k', v') :: mapSet rest k v

/-! ## Data model -/

/-- Template represents a .gitignore template. -/
structure Template where
  Name : String
  FileName : String
  Category : String
  Content : String
  Description : String
  Tags : List String
  Size : Int
  deriving DecidableEq, Repr

/-- Manager manages .gitignore templates: `templates` is keyed by the lowercase
name, `categories` by the category label. -/
structure Manager where
  templates : List (String × Template)
  categories : List (String × List Template)
  deriving DecidableEq, Repr

/-! ## Loader -/

/-- extractDescription extracts description from template content. -/
def extractDescription (content : String) : String :=
  match (Split content '\n').find?
      (fun line => HasPrefix (TrimSpace line) "# " && !Contains (TrimSpace line) "Created by") with
  | some line => TrimPrefix (TrimSpace line) "# "
  | none => ""

/-- The alias table of extractTags. -/
def aliases : List (String × List String) :=
  [("go", ["golang"]), ("node", ["nodejs", "npm"]), ("python", ["py"]),
   ("javascript", ["js"]), ("typescript", ["ts"]), ("visualstudio", ["vs"]),
   ("visualstudiocode", ["vscode"])]

/-- extractTags extracts searchable tags from name and category. -/
def extractTags (lower : Char → Char) (name category : String) : List String :=
  let tags := [ToLower lower name, ToLower lower category]
  match mapGet aliases (ToLower lower name) with
  | some extraTags => tags ++ extraTags
  | none => tags

/-- One call of the callback of `fs.WalkDir`: the path, the entry's `Name()`
and `IsDir()`, the error the walk passes in, and the pair `fs.ReadFile` returns
for the path (the content and the error, `none` for `nil`). -/
structure WalkEntry where
  path : String
  name : String
  isDir : Bool
  walkErr : Option String
  content : String
  readErr : Option String
  deriving DecidableEq, Repr

/-- The callback of loadTemplates: the manager after the entry, or the error
that stops the walk. -/
def visit (lower : Char → Char) (m : Manager) (e : WalkEntry) : Except String Manager :=
  match e.walkErr with
  | some err => .error err
  | none =>
    if e.isDir then .ok m
    else if !HasSuffix e.name ".gitignore" then .ok m
    else
      match e.readErr with
      | some err => .error ("failed to read " ++ e.path ++ ": " ++ err)
      | none =>
        let content := e.content
        let relPath := TrimPrefix e.path "data/gitignore/"
        let category :=
          if Contains relPath "/" then (Split relPath '/').headD "" else "Root"
        let name := TrimSuffix e.name ".gitignore"
        let tmpl : Template :=
          { Name := name, FileName := e.name, Category := category, Content := content,
            Description := extractDescription content,
            Tags := extractTags lower name category,
            Size := content.utf8ByteSize }
        let key := ToLower lower name
        .ok { templates := mapSet m.templates key tmpl,
              categories := mapSet m.categories category
                ((mapGet m.categories category).getD [] ++ [tmpl]) }

/-- loadTemplates loads all templates: the callback run over the entries of
the walk in order, stopping at the first error. -/
def loadTemplates (lower : Char → Char) : Manager → List WalkEntry → Except String Manager
  | m, [] => .ok m
  | m, e :: rest =>
    match visit lower m e with
    | .error err => .error err
    | .ok m' => loadTemplates lower m' rest

/-- New creates a new template manager and loads all templates; no manager is
returned when the load fails. -/
def New (lower : Char → Char) (walk : List WalkEntry) : Option Manager × Option String :=
  match loadTemplates lower { templates := [], categories := [] } walk with
  | .error err => (none, some err)
  | .ok m => (some m, none)

/-! ## Lookup -/

/-- Get retrieves a template by name (case-insensitive). -/
def Get (lower : Char → Char) (m : Manager) (name : String) : Option Template × Option String :=
  let key := ToLower lower name
  match mapGet m.templates key with
  | none => (none, some ("template not found: " ++ name))
  | some tmpl => (some tmpl, none)

/-! ## Combine -/

/-- The two variables the loops of Combine update: the builder `combined` and
the keys of `seen` that hold `true`. -/
structure CombineState where
  combined : String
  seen : List String
  deriving DecidableEq, Repr

/-- The body of the inner loop of Combine, for one line of a template. -/
def writeLine (st : CombineState) (line : String) : CombineState :=
  let trimmed := TrimSpace line
  if trimmed = "" ∨ HasPrefix trimmed "#" = true then
    { st with combined := st.combined ++ (line ++ "\n") }
  else if trimmed ∉ st.seen then
    { combined := st.combined ++ (line ++ "\n"), seen := trimmed :: st.seen }
  else st

/-- The outer loop of Combine over the names still to process. -/
def combineLoop (lower : Char → Char) (m : Manager) :
    List String → CombineState → String × Option String
  | [], st => (st.combined, none)
  | name :: rest, st =>
    let key := ToLower lower name
    match mapGet m.templates key with
    | none => ("", some ("template not found: " ++ name))
    | some tmpl =>
      let st1 := { st with combined := st.combined ++ ("### " ++ tmpl.Name ++ " ###\n") }
      let st2 := (Split tmpl.Content '\n').foldl writeLine st1
      combineLoop lower m rest { st2 with combined := st2.combined ++ "\n" }

/-- The header Combine writes first. -/
def combineHeader (names : List String) : String :=
  "# Combined .gitignore\n# Generated: " ++ Base (Join names ", ") ++
    "\n# Templates: " ++ Join names ", " ++ "\n\n"

/-- Combine combines multiple templates into one. -/
def Combine (lower : Char → Char) (m : Manager) (names : List String) : String × Option String :=
  combineLoop lower m names { combined := combineHeader names, seen := [] }

/-! ## The document Combine writes, read as sections -/

/-- A comment or blank line: Combine writes it without a look at `seen`. -/
def isCommentOrBlank (line : String) : Bool :=
  decide (TrimSpace line = "") || HasPrefix (TrimSpace line) "#"

/-- A pattern line: any other line; Combine writes it once per trimmed form. -/
def isPattern (line : String) : Bool :=
  !isCommentOrBlank line

/-- The texts of a list put one after the other. -/
def concat : List String → String
  | [] => ""
  | s :: rest => s ++ concat rest

/-- The text of a list of lines, each ended by a newline. -/
def linesText (lines : List String) : String :=
  concat (lines.map (fun line => line ++ "\n"))

/-- The lines of `lines` that the inner loop writes when it starts with `seen`. -/
def emitted : List String → List String → List String
  | _, [] => []
  | seen, line :: rest =>
    if isCommentOrBlank line then line :: emitted seen rest
    else if TrimSpace line ∈ seen then emitted seen rest
    else line :: emitted (TrimSpace line :: seen) rest

/-- The value of `seen` after the inner loop ran over `lines` from `seen`. -/
def seenAfter : List String → List String → List String
  | seen, [] => seen
  | seen, line :: rest =>
    if isCommentOrBlank line then seenAfter seen rest
    else if TrimSpace line ∈ seen then seenAfter seen rest
    else seenAfter (TrimSpace line :: seen) rest

/-- The templates the names of a request resolve to, in order; `none` when a
name has no entry under its lowercase form. -/
def resolveAll (lower : Char → Char) (m : Manager) : List String → Option (List Template)
  | [] => some []
  | name :: rest =>
    match mapGet m.templates (ToLower lower name), resolveAll lower m rest with
    | some tmpl, some tmpls => some (tmpl :: tmpls)
    | _, _ => none

/-- The lines of a list of sections, in order. -/
def allLines : List (Template × List String) → List String
  | [] => []
  | sec :: rest => sec.2 ++ allLines rest

/-- The trimmed forms of the pattern lines among `lines`, in order. -/
def patternKeys (lines : List String) : List String :=
  (lines.filter isPattern).map TrimSpace

/-- The sections of a document: each template with the lines written for it,
the first section starting from `seen`. -/
def sections : List String → List Template → List (Template × List String)
  | _, [] => []
  | seen, t :: ts =>
    (t, emitted seen (Split t.Content '\n')) ::
      sections (seenAfter seen (Split t.Content '\n')) ts

/-- The text of one section: its header line, its lines, the added blank line. -/
def sectionText (sec : Template × List String) : String :=
  "### " ++ sec.1.Name ++ " ###\n" ++ linesText sec.2 ++ "\n"

/-! ## Catalogs for evaluation -/

/-- The template "Go" of the examples of the specification. -/
def goTemplate : Template :=
  { Name := "Go", FileName := "Go.gitignore", Category := "Root",
    Content := "*.exe\n*.o\n# build\n", Description := "build",
    Tags := ["go", "root", "golang"], Size := 18 }

/-- The template "Python" of the examples of the specification. -/
def pythonTemplate : Template :=
  { Name := "Python", FileName := "Python.gitignore", Category := "Root",
    Content := "*.pyc\n__pycache__/\n", Description := "",
    Tags := ["python", "root", "py"], Size := 19 }

/-- A catalog holding "Go" and "Python". -/
def goPython : Manager :=
  { templates := [("go", goTemplate), ("python", pythonTemplate)],
    categories := [("Root", [goTemplate, pythonTemplate])] }

/-- A template whose content holds the pattern `*.log` twice. -/
def logsTemplate : Template :=
  { Name := "Logs", FileName := "Logs.gitignore", Category := "Root",
    Content := "*.log\n# logs\n*.log\n", Description := "logs",
    Tags := ["logs", "root"], Size := 19 }

/-- A catalog holding "Logs" only. -/
def logsCatalog : Manager :=
  { templates := [("logs", logsTemplate)], categories := [("Root", [logsTemplate])] }

/-- The primary index is keyed by lowercase name: every key is the lowercase
form of the name of the template stored under it, and no key occurs twice. -/
def KeyedByLower (lower : Char → Char) (m : Manager) : Prop :=
  (m.templates.map Prod.fst).Nodup ∧ ∀ p ∈ m.templates, p.1 = ToLower lower p.2.Name

/-- A walk over a dataset with one pattern file, named by the micro sign U+00B5. -/
def microWalk : List WalkEntry :=
  [ { path := "data/gitignore", name := "gitignore", isDir := true, walkErr := none,
      content := "", readErr := none },
    { path := "data/gitignore/\u00b5.gitignore", name := "\u00b5.gitignore", isDir := false,
      walkErr := none, content := "*.hex\n", readErr := none } ]

/-- The template the loader builds from the pattern file of `microWalk`. -/
def microTemplate : Template :=
  { Name := "\u00b5", FileName := "\u00b5.gitignore", Category := "Root",
    Content := "*.hex\n", Description := "", Tags := ["\u00b5", "root"], Size := 6 }

/-- The catalog the loader builds from `microWalk`. -/
def microCatalog : Manager :=
  { templates := [("\u00b5", microTemplate)], categories := [("Root", [microTemplate])] }

/-- A walk over a dataset with the files Go.gitignore, a README and
Global/Vim.gitignore. -/
def sampleWalk : List WalkEntry :=
  [ { path := "data/gitignore", name := "gitignore", isDir := true, walkErr := none,
      content := "", readErr := none },
    { path := "data/gitignore/Global", name := "Global", isDir := true, walkErr := none,
      content := "", readErr := none },
    { path := "data/gitignore/Global/Vim.gitignore", name := "Vim.gitignore", isDir := false,
      walkErr := none, content := "# Swap\n*.swp\n", readErr := none },
    { path := "data/gitignore/Go.gitignore", name := "Go.gitignore", isDir := false,
      walkErr := none, content := "*.exe\n*.o\n# build\n", readErr := none },
    { path := "data/gitignore/README.md", name := "README.md", isDir := false,
      walkErr := none, content := "templates", readErr := none } ]

/-- The template the loader builds from Global/Vim.gitignore. -/
def vimTemplate : Template :=
  { Name := "Vim", FileName := "Vim.gitignore", Category := "Global",
    Content := "# Swap\n*.swp\n", Description := "Swap", Tags := ["vim", "global"], Size := 13 }

/-- The catalog the loader builds from `sampleWalk`. -/
def sampleCatalog : Manager :=
  { templates := [("vim", vimTemplate), ("go", goTemplate)],
    categories := [("Global", [vimTemplate]), ("Root", [goTemplate])] }

/-! ## Listing, search and statistics

The order in which Go ranges over a map is not specified; the order of the
association list stands for the order a call happens to get. -/

/-- List returns all template names (`Manager.List` of the source). -/
def listNames (m : Manager) : List String :=
  m.templates.map (fun p => p.2.Name)

/-- ListAll returns all templates. -/
def ListAll (m : Manager) : List Template :=
  m.templates.map Prod.snd

/-- GetCategories returns all category names. -/
def GetCategories (m : Manager) : List String :=
  m.categories.map Prod.fst

/-- GetByCategory returns all templates in a category: the read
`m.categories[category]`, which is the nil slice for a label that is no key. -/
def GetByCategory (m : Manager) (category : String) : List Template :=
  (mapGet m.categories category).getD []

/-- The loop of Search over the tags of one template: the template is appended
at the first tag that contains the query and the loop is left. -/
def searchTags (query : String) (tmpl : Template) (results : List Template) :
    List String → List Template
  | [] => results
  | tag :: rest =>
    if Contains tag query then results ++ [tmpl] else searchTags query tmpl results rest

/-- The body of the loop of Search for one template; `continue` ends the body
after a match on the name or on the category. -/
def searchStep (lower : Char → Char) (query : String) (results : List Template)
    (tmpl : Template) : List Template :=
  if Contains (ToLower lower tmpl.Name) query then results ++ [tmpl]
  else if Contains (ToLower lower tmpl.Category) query then results ++ [tmpl]
  else
    let results := searchTags query tmpl results tmpl.Tags
    if Contains (ToLower lower tmpl.Description) query then results ++ [tmpl] else results

/-- Search searches templates by query (name, category, tags). -/
def Search (lower : Char → Char) (m : Manager) (query : String) : List Template :=
  let query := ToLower lower query
  (m.templates.map Prod.snd).foldl (searchStep lower query) []

/-- Count returns the total number of templates. -/
def Count (m : Manager) : Int :=
  m.templates.length

/-- The map Stats returns, one field per key. -/
structure StatsResult where
  total_templates : Int
  categories : Int
  category_breakdown : List (String × Int)
  total_size_bytes : Int
  deriving DecidableEq, Repr

/-- The body of the loop of Stats: the counter of the category of the template
goes up by one and its size is added to the total. -/
def statsStep (acc : List (String × Int) × Int) (tmpl : Template) : List (String × Int) × Int :=
  (mapSet acc.1 tmpl.Category ((mapGet acc.1 tmpl.Category).getD 0 + 1), acc.2 + tmpl.Size)

/-- Stats returns template statistics. -/
def Stats (m : Manager) : StatsResult :=
  let acc := (m.templates.map Prod.snd).foldl statsStep ([], 0)
  { total_templates := m.templates.length,
    categories := m.categories.length,
    category_breakdown := acc.1,
    total_size_bytes := acc.2 }

/-- The comparison `a < b` of two rune sequences, rune by rune. -/
def runesLess : List Char → List Char → Bool
  | _, [] => false
  | [], _ :: _ => true
  | a :: as, b :: bs => decide (a.toNat < b.toNat) || (decide (a = b) && runesLess as bs)

/-- The comparison `a < b` of Go strings: bytewise, which on UTF-8 text is the
order of the rune sequences. -/
def stringLess (a b : String) : Bool :=
  runesLess a.data b.data

/-- The check the test of List makes: every name is less than the next one
(no `list[i-1] >= list[i]`). -/
def increasing : List String → Bool
  | a :: b :: rest => stringLess a b && increasing (b :: rest)
  | _ => true

/-- The sum of the counters of a category breakdown. -/
def sumCounts (counts : List (String × Int)) : Int :=
  (counts.map Prod.snd).sum

/-! ## The loader, entry by entry -/

/-- The entries the callback of loadTemplates makes a template of: files whose
name ends in ".gitignore". -/
def qualifies (e : WalkEntry) : Bool :=
  !e.isDir && HasSuffix e.name ".gitignore"

/-- The category the callback derives from the path of an entry. -/
def categoryOf (e : WalkEntry) : String :=
  if Contains (TrimPrefix e.path "data/gitignore/") "/"
  then (Split (TrimPrefix e.path "data/gitignore/") '/').headD "" else "Root"

/-- The template the callback builds from an entry. -/
def templateOf (lower : Char → Char) (e : WalkEntry) : Template :=
  { Name := TrimSuffix e.name ".gitignore", FileName := e.name, Category := categoryOf e,
    Content := e.content, Description := extractDescription e.content,
    Tags := extractTags lower (TrimSuffix e.name ".gitignore") (categoryOf e),
    Size := e.content.utf8ByteSize }

/-- The key the callback stores the template of an entry under. -/
def keyOf (lower : Char → Char) (e : WalkEntry) : String :=
  ToLower lower (TrimSuffix e.name ".gitignore")

/-- The manager after the callback stored the template of a pattern file. -/
def store (lower : Char → Char) (m : Manager) (e : WalkEntry) : Manager :=
  { templates := mapSet m.templates (keyOf lower e) (templateOf lower e),
    categories := mapSet m.categories (categoryOf e)
      ((mapGet m.categories (categoryOf e)).getD [] ++ [templateOf lower e]) }

/-- The manager after a walk none of whose entries gives an error: the pattern
files stored in order, the other entries passed over. -/
def loadAll (lower : Char → Char) (m : Manager) (walk : List WalkEntry) : Manager :=
  walk.foldl (fun m e => if qualifies e then store lower m e else m) m

/-- An entry the callback passes without error: the walk reports none, and
the read of a pattern file succeeds. -/
def loadsCleanly (e : WalkEntry) : Bool :=
  e.walkErr.isNone && (!qualifies e || e.readErr.isNone)

/-- Every category list holds templates of its own category only, and every
template of the primary index is in the list stored under its category. -/
def CategoriesAgree (m : Manager) : Prop :=
  (∀ p ∈ m.categories, ∀ T ∈ p.2, T.Category = p.1) ∧
  ∀ p ∈ m.templates, ∃ l, mapGet m.categories p.2.Category = some l ∧ p.2 ∈ l

/-- Every template of the primary index has the byte length of its content as
its size. -/
def SizesAreLengths (m : Manager) : Prop :=
  ∀ p ∈ m.templates, p.2.Size = p.2.Content.utf8ByteSize

/-! ## More catalogs for evaluation -/

/-- A walk over a dataset with the one file Node.gitignore, whose first comment
line mentions npm. -/
def nodeWalk : List WalkEntry :=
  [ { path := "data/gitignore", name := "gitignore", isDir := true, walkErr := none,
      content := "", readErr := none },
    { path := "data/gitignore/Node.gitignore", name := "Node.gitignore", isDir := false,
      walkErr := none, content := "# npm debug logs\nnpm-debug.log*\n", readErr := none } ]

/-- The template the loader builds from Node.gitignore. -/
def nodeTemplate : Template :=
  { Name := "Node", FileName := "Node.gitignore", Category := "Root",
    Content := "# npm debug logs\nnpm-debug.log*\n", Description := "npm debug logs",
    Tags := ["node", "root", "nodejs", "npm"], Size := 32 }

/-- The catalog the loader builds from `nodeWalk`. -/
def nodeCatalog : Manager :=
  { templates := [("node", nodeTemplate)], categories := [("Root", [nodeTemplate])] }

/-- The entry of the root directory of the dataset. -/
def rootEntry : WalkEntry :=
  { path := "data/gitignore", name := "gitignore", isDir := true, walkErr := none,
    content := "", readErr := none }

/-- The entry of the directory Global. -/
def globalEntry : WalkEntry :=
  { path := "data/gitignore/Global", name := "Global", isDir := true, walkErr := none,
    content := "", readErr := none }

/-- The entry of the file Global/go.gitignore. -/
def lowerGoEntry : WalkEntry :=
  { path := "data/gitignore/Global/go.gitignore", name := "go.gitignore", isDir := false,
    walkErr := none, content := "*.test\n", readErr := none }

/-- The entry of the file Go.gitignore, whose name has the lowercase form of
the name of Global/go.gitignore. -/
def upperGoEntry : WalkEntry :=
  { path := "data/gitignore/Go.gitignore", name := "Go.gitignore", isDir := false,
    walkErr := none, content := "*.exe\n*.o\n# build\n", readErr := none }

/-! ## Pattern lines of a request, first occurrences -/

/-- The lines of the contents of a list of templates, in order. -/
def contentLines : List Template → List String
  | [] => []
  | t :: ts => Split t.Content '\n' ++ contentLines ts

/-- First-occurrence deduplication keyed by trimmed form: a line stays when no
earlier line of the list has its trimmed form. -/
def dedupFirst : List String → List String
  | [] => []
  | line :: rest =>
    line :: (dedupFirst rest).filter (fun other => decide (TrimSpace other ≠ TrimSpace line))

/-- The lengths of the lists of a category index, added up. -/
def sumLengths (categories : List (String × List Template)) : Int :=
  (categories.map (fun p => (p.2.length : Int))).sum

/-- The category index agrees with the primary index: every template of a
category list is the template Get finds under its name, and the lists hold as
many templates as the primary index. -/
def IndexesAgree (lower : Char → Char) (m : Manager) : Prop :=
  (∀ p ∈ m.categories, ∀ T ∈ p.2, mapGet m.templates (ToLower lower T.Name) = some T) ∧
  sumLengths m.categories = m.templates.length

/-! ## URL building (`src/server/url_detection.go`) -/

/-- buildURL constructs a complete URL from components. -/
def buildURL (proto host port : String) : String :=
  let host := if Contains host ":" then (Split host ':').headD "" else host
  if (proto = "http" ∧ port = "80") ∨ (proto = "https" ∧ port = "443") ∨ port = "" ∨ port = "0"
  then proto ++ "://" ++ host
  else proto ++ "://" ++ host ++ ":" ++ port

/-! ## Settings (`src/database/database.go`)

The table `settings` is the list of its rows, each the pair of the columns
`key` (the primary key) and `value`; GetSetting and SetSetting read and compare
no other column.  The database answers every statement: errors of the driver
are not part of the model. -/

/-- GetSetting retrieves a setting value: the row selected by the key, or the
error of `sql.ErrNoRows`. -/
def GetSetting (settings : List (String × String)) (key : String) : String × Option String :=
  match settings.find? (fun row => decide (row.1 = key)) with
  | none => ("", some ("setting not found: " ++ key))
  | some row => (row.2, none)

/-- SetSetting sets a setting value: the UPDATE of the rows with the key, and
the error when it affected no row.  The result is the table after the call and
the error. -/
def SetSetting (settings : List (String × String)) (key value : String) :
    List (String × String) × Option String :=
  let updated := settings.map (fun row => if row.1 = key then (row.1, value) else row)
  let rows := (settings.filter (fun row => decide (row.1 = key))).length
  if rows = 0 then (updated, some ("setting not found: " ++ key)) else (updated, none)

/-- The rows insertDefaultSettings puts into an empty table. -/
def defaultSettings : List (String × String) :=
  [("server.title", "GitIgnore API"), ("server.address", "0.0.0.0"),
   ("server.https_enabled", "false"), ("server.trust_proxy", "true"),
   ("proxy.enabled", "true"), ("proxy.trust_headers", "true"), ("db.type", "sqlite"),
   ("log.level", "info"), ("log.format", "json"), ("log.access", "true")]

/-! ## Entries and catalogs for evaluation, continued -/

/-- The walk over Global/go.gitignore and Go.gitignore. -/
def twoGoWalk : List WalkEntry :=
  [rootEntry, globalEntry, lowerGoEntry, upperGoEntry]

/-- The catalog the loader builds from `twoGoWalk`: the primary index holds the
template of Go.gitignore only, the category index both templates. -/
def twoGoCatalog : Manager :=
  { templates := [("go", goTemplate)],
    categories := [("Global", [templateOf latinLower lowerGoEntry]), ("Root", [goTemplate])] }

/-- An entry of Global/Vim.gitignore whose read fails. -/
def unreadableEntry : WalkEntry :=
  { path := "data/gitignore/Global/Vim.gitignore", name := "Vim.gitignore", isDir := false,
    walkErr := none, content := "", readErr := some "permission denied" }

/-! ## Lemmas on strings -/

theorem concat_append (xs ys : List String) : concat (xs ++ ys) = concat xs ++ concat ys := by
  induction xs with
  | nil => simp [concat]
  | cons x xs ih => simp [concat, ih, String.append_assoc]

theorem linesText_nil : linesText [] = "" := rfl

theorem linesText_cons (l : String) (ls : List String) :
    linesText (l :: ls) = (l ++ "\n") ++ linesText ls := rfl

/-! ## The inner loop, line by line -/

theorem emitted_cons_comment {line : String} (h : isCommentOrBlank line = true)
    (seen rest : List String) : emitted seen (line :: rest) = line :: emitted seen rest := by
  simp [emitted, h]

theorem emitted_cons_seen {line : String} {seen : List String}
    (h : isCommentOrBlank line = false) (h2 : TrimSpace line ∈ seen) (rest : List String) :
    emitted seen (line :: rest) = emitted seen rest := by
  simp [emitted, h, h2]

theorem emitted_cons_new {line : String} {seen : List String}
    (h : isCommentOrBlank line = false) (h2 : TrimSpace line ∉ seen) (rest : List String) :
    emitted seen (line :: rest) = line :: emitted (TrimSpace line :: seen) rest := by
  simp [emitted, h, h2]

theorem seenAfter_cons_comment {line : String} (h : isCommentOrBlank line = true)
    (seen rest : List String) : seenAfter seen (line :: rest) = seenAfter seen rest := by
  simp [seenAfter, h]

theorem seenAfter_cons_seen {line : String} {seen : List String}
    (h : isCommentOrBlank line = false) (h2 : TrimSpace line ∈ seen) (rest : List String) :
    seenAfter seen (line :: rest) = seenAfter seen rest := by
  simp [seenAfter, h, h2]

theorem seenAfter_cons_new {line : String} {seen : List String}
    (h : isCommentOrBlank line = false) (h2 : TrimSpace line ∉ seen) (rest : List String) :
    seenAfter seen (line :: rest) = seenAfter (TrimSpace line :: seen) rest := by
  simp [seenAfter, h, h2]

theorem patternKeys_cons_comment {line : String} (h : isCommentOrBlank line = true)
    (rest : List String) : patternKeys (line :: rest) = patternKeys rest := by
  simp [patternKeys, isPattern, h]

theorem patternKeys_cons_pattern {line : String} (h : isCommentOrBlank line = false)
    (rest : List String) : patternKeys (line :: rest) = TrimSpace line :: patternKeys rest := by
  simp [patternKeys, isPattern, h]

theorem patternKeys_append (xs ys : List String) :
    patternKeys (xs ++ ys) = patternKeys xs ++ patternKeys ys := by
  simp [patternKeys]

theorem writeLine_comment {line : String} (h : isCommentOrBlank line = true)
    (st : CombineState) :
    writeLine st line = { st with combined := st.combined ++ (line ++ "\n") } := by
  have h' : TrimSpace line = "" ∨ HasPrefix (TrimSpace line) "#" = true := by
    simpa [isCommentOrBlank] using h
  simp [writeLine, h']

theorem writeLine_pattern {line : String} (h : isCommentOrBlank line = false)
    (st : CombineState) :
    writeLine st line =
      if TrimSpace line ∉ st.seen then
        { combined := st.combined ++ (line ++ "\n"), seen := TrimSpace line :: st.seen }
      else st := by
  have h' : ¬ (TrimSpace line = "" ∨ HasPrefix (TrimSpace line) "#" = true) := by
    simpa [isCommentOrBlank] using h
  simp [writeLine, h']

theorem foldl_writeLine (lines : List String) (st : CombineState) :
    lines.foldl writeLine st =
      { combined := st.combined ++ linesText (emitted st.seen lines),
        seen := seenAfter st.seen lines } := by
  induction lines generalizing st with
  | nil => simp [emitted, seenAfter, linesText_nil]
  | cons line rest ih =>
    rw [List.foldl_cons, ih]
    cases h1 : isCommentOrBlank line with
    | true =>
      rw [writeLine_comment h1, emitted_cons_comment h1, seenAfter_cons_comment h1]
      simp [linesText_cons, String.append_assoc]
    | false =>
      rw [writeLine_pattern h1]
      by_cases h2 : TrimSpace line ∈ st.seen
      · rw [emitted_cons_seen h1 h2, seenAfter_cons_seen h1 h2]
        simp [h2]
      · rw [emitted_cons_new h1 h2, seenAfter_cons_new h1 h2]
        simp [h2, linesText_cons, String.append_assoc]

theorem emitted_comments (lines : List String) (seen : List String) :
    (emitted seen lines).filter isCommentOrBlank = lines.filter isCommentOrBlank := by
  induction lines generalizing seen with
  | nil => simp [emitted]
  | cons line rest ih =>
    cases h1 : isCommentOrBlank line with
    | true => simp [emitted_cons_comment h1, h1, ih]
    | false =>
      by_cases h2 : TrimSpace line ∈ seen
      · simp [emitted_cons_seen h1 h2, h1, ih]
      · simp [emitted_cons_new h1 h2, h1, ih]

theorem mem_seenAfter (lines : List String) (seen : List String) (x : String) :
    x ∈ seenAfter seen lines ↔ x ∈ seen ∨ x ∈ patternKeys lines := by
  induction lines generalizing seen with
  | nil => simp [seenAfter, patternKeys]
  | cons line rest ih =>
    cases h1 : isCommentOrBlank line with
    | true => rw [seenAfter_cons_comment h1, patternKeys_cons_comment h1, ih]
    | false =>
      rw [patternKeys_cons_pattern h1]
      by_cases h2 : TrimSpace line ∈ seen
      · rw [seenAfter_cons_seen h1 h2, ih]
        constructor
        · rintro (h | h)
          · exact Or.inl h
          · exact Or.inr (List.mem_cons_of_mem _ h)
        · rintro (h | h)
          · exact Or.inl h
          · rcases List.mem_cons.mp h with h | h
            · exact Or.inl (h ▸ h2)
            · exact Or.inr h
      · rw [seenAfter_cons_new h1 h2, ih]
        simp only [List.mem_cons]
        tauto

theorem mem_patternKeys_emitted (lines : List String) (seen : List String) (x : String) :
    x ∈ patternKeys (emitted seen lines) ↔ x ∈ patternKeys lines ∧ x ∉ seen := by
  induction lines generalizing seen with
  | nil => simp [emitted, patternKeys]
  | cons line rest ih =>
    cases h1 : isCommentOrBlank line with
    | true =>
      rw [emitted_cons_comment h1, patternKeys_cons_comment h1, patternKeys_cons_comment h1, ih]
    | false =>
      rw [patternKeys_cons_pattern h1]
      by_cases h2 : TrimSpace line ∈ seen
      · rw [emitted_cons_seen h1 h2, ih]
        constructor
        · rintro ⟨h, hn⟩
          exact ⟨List.mem_cons_of_mem _ h, hn⟩
        · rintro ⟨h, hn⟩
          rcases List.mem_cons.mp h with h | h
          · exact absurd (h ▸ h2) hn
          · exact ⟨h, hn⟩
      · rw [emitted_cons_new h1 h2, patternKeys_cons_pattern h1]
        simp only [List.mem_cons, ih]
        constructor
        · rintro (h | ⟨h, hn⟩)
          · exact ⟨Or.inl h, h ▸ h2⟩
          · exact ⟨Or.inr h, fun hx => hn (Or.inr hx)⟩
        · rintro ⟨h | h, hn⟩
          · exact Or.inl h
          · by_cases hx : x = TrimSpace line
            · exact Or.inl hx
            · exact Or.inr ⟨h, fun hx' => hx'.elim hx hn⟩

theorem patternKeys_emitted_nodup (lines : List String) (seen : List String) :
    (patternKeys (emitted seen lines)).Nodup := by
  induction lines generalizing seen with
  | nil => simp [emitted, patternKeys]
  | cons line rest ih =>
    cases h1 : isCommentOrBlank line with
    | true =>
      rw [emitted_cons_comment h1, patternKeys_cons_comment h1]
      exact ih seen
    | false =>
      by_cases h2 : TrimSpace line ∈ seen
      · rw [emitted_cons_seen h1 h2]
        exact ih seen
      · rw [emitted_cons_new h1 h2, patternKeys_cons_pattern h1, List.nodup_cons]
        refine ⟨?_, ih _⟩
        rw [mem_patternKeys_emitted]
        simp

theorem emitted_of_seen (lines : List String) (seen : List String)
    (h : ∀ x ∈ patternKeys lines, x ∈ seen) :
    emitted seen lines = lines.filter isCommentOrBlank := by
  induction lines generalizing seen with
  | nil => simp [emitted]
  | cons line rest ih =>
    cases h1 : isCommentOrBlank line with
    | true =>
      rw [patternKeys_cons_comment h1] at h
      rw [emitted_cons_comment h1, ih seen h]
      simp [h1]
    | false =>
      rw [patternKeys_cons_pattern h1] at h
      have h2 : TrimSpace line ∈ seen := h _ (List.mem_cons_self _ _)
      rw [emitted_cons_seen h1 h2, ih seen (fun x hx => h x (List.mem_cons_of_mem _ hx))]
      simp [h1]

theorem emitted_of_fresh (lines : List String) (seen : List String)
    (hnd : (patternKeys lines).Nodup) (hfresh : ∀ x ∈ patternKeys lines, x ∉ seen) :
    emitted seen lines = lines := by
  induction lines generalizing seen with
  | nil => simp [emitted]
  | cons line rest ih =>
    cases h1 : isCommentOrBlank line with
    | true =>
      rw [patternKeys_cons_comment h1] at hnd hfresh
      rw [emitted_cons_comment h1, ih seen hnd hfresh]
    | false =>
      rw [patternKeys_cons_pattern h1] at hnd hfresh
      have h2 : TrimSpace line ∉ seen := hfresh _ (List.mem_cons_self _ _)
      have hnd' := (List.nodup_cons.mp hnd)
      have hrest : ∀ x ∈ patternKeys rest, x ∉ TrimSpace line :: seen := by
        intro x hx hmem
        rcases List.mem_cons.mp hmem with h | h
        · exact hnd'.1 (h ▸ hx)
        · exact hfresh x (List.mem_cons_of_mem _ hx) h
      rw [emitted_cons_new h1 h2, ih (TrimSpace line :: seen) hnd'.2 hrest]

/-! ## The outer loop -/

theorem combineLoop_cons_none (lower : Char → Char) (m : Manager) (name : String)
    (rest : List String) (st : CombineState)
    (hg : mapGet m.templates (ToLower lower name) = none) :
    combineLoop lower m (name :: rest) st = ("", some ("template not found: " ++ name)) := by
  simp [combineLoop, hg]

theorem combineLoop_cons_some (lower : Char → Char) (m : Manager) (name : String)
    (rest : List String) (st : CombineState) (tmpl : Template)
    (hg : mapGet m.templates (ToLower lower name) = some tmpl) :
    combineLoop lower m (name :: rest) st =
      combineLoop lower m rest
        { combined := st.combined ++ sectionText (tmpl, emitted st.seen (Split tmpl.Content '\n')),
          seen := seenAfter st.seen (Split tmpl.Content '\n') } := by
  simp [combineLoop, hg, foldl_writeLine, sectionText, String.append_assoc]

theorem combineLoop_of_resolveAll (lower : Char → Char) (m : Manager) (names : List String) :
    ∀ (ts : List Template) (st : CombineState), resolveAll lower m names = some ts →
      combineLoop lower m names st =
        (st.combined ++ concat ((sections st.seen ts).map sectionText), none) := by
  induction names with
  | nil =>
    intro ts st h
    simp [resolveAll] at h
    subst h
    simp [combineLoop, sections, concat]
  | cons name rest ih =>
    intro ts st h
    unfold resolveAll at h
    cases hg : mapGet m.templates (ToLower lower name) with
    | none => simp [hg] at h
    | some tmpl =>
      cases hr : resolveAll lower m rest with
      | none => simp [hg, hr] at h
      | some tmpls =>
        simp [hg, hr] at h
        subst h
        rw [combineLoop_cons_some lower m name rest st tmpl hg, ih tmpls _ hr]
        simp [sections, concat, String.append_assoc]

theorem combineLoop_first_unresolved (lower : Char → Char) (m : Manager)
    (names : List String) (st : CombineState) :
    match names.find? (fun n => (mapGet m.templates (ToLower lower n)).isNone) with
    | some n => combineLoop lower m names st = ("", some ("template not found: " ++ n))
    | none => (combineLoop lower m names st).2 = none := by
  induction names generalizing st with
  | nil => simp [combineLoop]
  | cons name rest ih =>
    cases hg : mapGet m.templates (ToLower lower name) with
    | none => simp [List.find?_cons, hg, combineLoop_cons_none]
    | some tmpl =>
      rw [combineLoop_cons_some lower m name rest st tmpl hg]
      simpa [List.find?_cons, hg] using ih _

theorem resolveAll_eq_none_iff (lower : Char → Char) (m : Manager) (names : List String) :
    resolveAll lower m names = none ↔
      ∃ n ∈ names, mapGet m.templates (ToLower lower n) = none := by
  induction names with
  | nil => simp [resolveAll]
  | cons name rest ih =>
    unfold resolveAll
    cases hg : mapGet m.templates (ToLower lower name) with
    | none => simp [hg]
    | some tmpl =>
      cases hr : resolveAll lower m rest with
      | none =>
        have := ih.mp hr
        simp [hg, this]
      | some tmpls =>
        have hne : ¬ ∃ n ∈ rest, mapGet m.templates (ToLower lower n) = none := by
          intro hex
          have := ih.mpr hex
          simp [hr] at this
        simp only [List.mem_cons, exists_eq_or_imp, hg]
        simp [hne]

theorem resolveAll_forall₂ (lower : Char → Char) (m : Manager) (names : List String) :
    ∀ ts, resolveAll lower m names = some ts →
      List.Forall₂ (fun n t => mapGet m.templates (ToLower lower n) = some t) names ts := by
  induction names with
  | nil =>
    intro ts h
    simp [resolveAll] at h
    subst h
    exact List.Forall₂.nil
  | cons name rest ih =>
    intro ts h
    unfold resolveAll at h
    cases hg : mapGet m.templates (ToLower lower name) with
    | none => simp [hg] at h
    | some tmpl =>
      cases hr : resolveAll lower m rest with
      | none => simp [hg, hr] at h
      | some tmpls =>
        simp [hg, hr] at h
        subst h
        exact List.Forall₂.cons hg (ih tmpls hr)

theorem Combine_first_unresolved (lower : Char → Char) (m : Manager) (names : List String) :
    match names.find? (fun n => (mapGet m.templates (ToLower lower n)).isNone) with
    | some n => Combine lower m names = ("", some ("template not found: " ++ n))
    | none => (Combine lower m names).2 = none :=
  combineLoop_first_unresolved lower m names _

theorem Combine_error_iff (lower : Char → Char) (m : Manager) (names : List String) :
    (Combine lower m names).2 ≠ none ↔
      ∃ n ∈ names, mapGet m.templates (ToLower lower n) = none := by
  have h := Combine_first_unresolved lower m names
  cases hf : names.find? (fun n => (mapGet m.templates (ToLower lower n)).isNone) with
  | none =>
    rw [hf] at h
    have hall := List.find?_eq_none.mp hf
    constructor
    · intro hne
      exact absurd h hne
    · rintro ⟨n, hn, hg⟩
      have := hall n hn
      simp [hg] at this
  | some n =>
    rw [hf] at h
    have hmem := List.mem_of_find?_eq_some hf
    have hp := List.find?_some hf
    constructor
    · intro _
      refine ⟨n, hmem, ?_⟩
      simpa using hp
    · intro _
      rw [h]
      simp

theorem Combine_of_success (lower : Char → Char) (m : Manager) (names : List String)
    (h : (Combine lower m names).2 = none) :
    ∃ ts, resolveAll lower m names = some ts ∧
      Combine lower m names =
        (combineHeader names ++ concat ((sections [] ts).map sectionText), none) := by
  cases hr : resolveAll lower m names with
  | none =>
    have := (Combine_error_iff lower m names).mpr ((resolveAll_eq_none_iff lower m names).mp hr)
    exact absurd h this
  | some ts =>
    exact ⟨ts, rfl, combineLoop_of_resolveAll lower m names ts _ hr⟩

/-! ## The sections -/

theorem sections_map_fst (ts : List Template) (seen : List String) :
    (sections seen ts).map Prod.fst = ts := by
  induction ts generalizing seen with
  | nil => rfl
  | cons t ts ih => simp [sections, ih]

theorem mem_patternKeys_sections (ts : List Template) (seen : List String) (x : String) :
    x ∈ patternKeys (allLines (sections seen ts)) ↔
      (∃ t ∈ ts, x ∈ patternKeys (Split t.Content '\n')) ∧ x ∉ seen := by
  induction ts generalizing seen with
  | nil => simp [sections, allLines, patternKeys]
  | cons t ts ih =>
    simp only [sections, allLines, patternKeys_append, List.mem_append, mem_patternKeys_emitted,
      ih, mem_seenAfter, List.mem_cons, exists_eq_or_imp]
    tauto

theorem patternKeys_sections_nodup (ts : List Template) (seen : List String) :
    (patternKeys (allLines (sections seen ts))).Nodup := by
  induction ts generalizing seen with
  | nil => simp [sections, allLines, patternKeys]
  | cons t ts ih =>
    simp only [sections, allLines, patternKeys_append]
    rw [List.nodup_append]
    refine ⟨patternKeys_emitted_nodup _ _, ih _, ?_⟩
    intro x hx hx'
    rw [mem_patternKeys_emitted] at hx
    rw [mem_patternKeys_sections, mem_seenAfter] at hx'
    exact hx'.2 (Or.inr hx.1)

theorem sections_comments (ts : List Template) (seen : List String) :
    ∀ sec ∈ sections seen ts,
      sec.2.filter isCommentOrBlank = (Split sec.1.Content '\n').filter isCommentOrBlank := by
  induction ts generalizing seen with
  | nil => simp [sections]
  | cons t ts ih =>
    intro sec hsec
    simp only [sections, List.mem_cons] at hsec
    rcases hsec with h | h
    · subst h
      exact emitted_comments _ _
    · exact ih _ sec h

theorem linesText_Split_data (cs : List Char) :
    (concat (((splitRunes '\n' cs).map String.mk).map (fun l => l ++ "\n"))).data =
      cs ++ ['\n'] := by
  induction cs with
  | nil => rfl
  | cons c cs ih =>
    unfold splitRunes
    by_cases hc : c = '\n'
    · subst hc
      simp only [if_true, List.map_cons, concat, String.data_append, ih]
      rfl
    · simp only [hc, if_false]
      cases hs : splitRunes '\n' cs with
      | nil =>
        rw [hs] at ih
        have : ([] : List Char) = cs ++ ['\n'] := ih
        simp at this
      | cons piece pieces =>
        rw [hs] at ih
        simp only [List.map_cons, concat, String.data_append] at ih ⊢
        simp only [List.cons_append, ih]

theorem linesText_Split (s : String) : linesText (Split s '\n') = s ++ "\n" := by
  apply String.ext
  rw [String.data_append]
  exact linesText_Split_data s.data

/-! ## Claims on Combine -/

/-- C1: Combine returns an error exactly when some name of the list has no
entry under its lowercase form; the result is then the empty document together
with the error "template not found: " followed by the first such name of the
list as it was supplied, and it is a document without error when every name
resolves. -/
theorem Combine_error_first_unresolved (lower : Char → Char) (m : Manager)
    (names : List String) :
    ((Combine lower m names).2 ≠ none ↔
      ∃ n ∈ names, mapGet m.templates (ToLower lower n) = none) ∧
    (match names.find? (fun n => (mapGet m.templates (ToLower lower n)).isNone) with
     | some n => Combine lower m names = ("", some ("template not found: " ++ n))
     | none => (Combine lower m names).2 = none) :=
  ⟨Combine_error_iff lower m names, Combine_first_unresolved lower m names⟩

/-- C2: when Combine succeeds the document is the header followed by the
sections, and among all lines written in the sections the pattern lines have
pairwise distinct trimmed forms; the trimmed form of every pattern line of every
requested template occurs exactly once among them. -/
theorem Combine_patterns_once (lower : Char → Char) (m : Manager) (names : List String)
    (h : (Combine lower m names).2 = none) :
    ∃ ts, resolveAll lower m names = some ts ∧
      (Combine lower m names).1 =
        combineHeader names ++ concat ((sections [] ts).map sectionText) ∧
      (patternKeys (allLines (sections [] ts))).Nodup ∧
      ∀ t ∈ ts, ∀ line ∈ Split t.Content '\n', isPattern line = true →
        (patternKeys (allLines (sections [] ts))).count (TrimSpace line) = 1 := by
  obtain ⟨ts, hr, hc⟩ := Combine_of_success lower m names h
  refine ⟨ts, hr, by rw [hc], patternKeys_sections_nodup ts [], ?_⟩
  intro t ht line hline hp
  apply List.count_eq_one_of_mem (patternKeys_sections_nodup ts [])
  rw [mem_patternKeys_sections]
  refine ⟨⟨t, ht, ?_⟩, by simp⟩
  exact List.mem_map.mpr ⟨line, List.mem_filter.mpr ⟨hline, hp⟩, rfl⟩

/-- Witness of C2 on the request Go, Python. -/
theorem Combine_patterns_once_witness :
    ∃ ts, resolveAll latinLower goPython ["Go", "Python"] = some ts ∧
      (Combine latinLower goPython ["Go", "Python"]).1 =
        combineHeader ["Go", "Python"] ++ concat ((sections [] ts).map sectionText) ∧
      (patternKeys (allLines (sections [] ts))).Nodup ∧
      ∀ t ∈ ts, ∀ line ∈ Split t.Content '\n', isPattern line = true →
        (patternKeys (allLines (sections [] ts))).count (TrimSpace line) = 1 :=
  Combine_patterns_once latinLower goPython ["Go", "Python"] (by decide)

/-- C3, as stated, fails: the content of "Logs" holds `*.log` twice and
Combine of that one name writes the second copy nowhere, so the document is
not the header, the section header, every line of the content and the blank
line. -/
theorem Combine_single_drops_repeated_pattern :
    ¬ ((Combine latinLower logsCatalog ["Logs"]).1 =
        combineHeader ["Logs"] ++
          ("### Logs ###\n" ++ linesText (Split logsTemplate.Content '\n') ++ "\n")) := by
  decide

/-- C3, amended: for a name that resolves to a template A no two pattern lines
of which have the same trimmed form, Combine of that one name is the header,
the section header line of A, every line of the content of A in order (which is
the content itself followed by a newline), and the added blank line. -/
theorem Combine_single_reproduces_content (lower : Char → Char) (m : Manager)
    (name : String) (A : Template)
    (hA : mapGet m.templates (ToLower lower name) = some A)
    (hnd : (patternKeys (Split A.Content '\n')).Nodup) :
    Combine lower m [name] =
      (combineHeader [name] ++
        ("### " ++ A.Name ++ " ###\n" ++ linesText (Split A.Content '\n') ++ "\n"), none) ∧
    linesText (Split A.Content '\n') = A.Content ++ "\n" := by
  refine ⟨?_, linesText_Split _⟩
  have hr : resolveAll lower m [name] = some [A] := by simp [resolveAll, hA]
  unfold Combine
  rw [combineLoop_of_resolveAll lower m [name] [A] _ hr]
  simp only [sections, List.map_cons, List.map_nil, concat, sectionText, String.append_empty]
  rw [emitted_of_fresh _ [] hnd (by simp)]

/-- Witness of C3 amended on the request Go. -/
theorem Combine_single_reproduces_content_witness :
    Combine latinLower goPython ["Go"] =
      (combineHeader ["Go"] ++
        ("### " ++ goTemplate.Name ++ " ###\n" ++
          linesText (Split goTemplate.Content '\n') ++ "\n"), none) ∧
    linesText (Split goTemplate.Content '\n') = goTemplate.Content ++ "\n" :=
  Combine_single_reproduces_content latinLower goPython "Go" goTemplate (by decide) (by decide)

/-- C4: for a name that resolves to a template A, Combine of the name given
twice is the header, the first section of A, and a second section made of the
section header line of A, exactly the comment and blank lines of the content of
A in order, and the added blank line. -/
theorem Combine_twice_second_section (lower : Char → Char) (m : Manager)
    (name : String) (A : Template)
    (hA : mapGet m.templates (ToLower lower name) = some A) :
    Combine lower m [name, name] =
      (combineHeader [name, name] ++
        (sectionText (A, emitted [] (Split A.Content '\n')) ++
          ("### " ++ A.Name ++ " ###\n" ++
            linesText ((Split A.Content '\n').filter isCommentOrBlank) ++ "\n")), none) := by
  have hr : resolveAll lower m [name, name] = some [A, A] := by simp [resolveAll, hA]
  unfold Combine
  rw [combineLoop_of_resolveAll lower m [name, name] [A, A] _ hr]
  have hseen : ∀ x ∈ patternKeys (Split A.Content '\n'),
      x ∈ seenAfter [] (Split A.Content '\n') := by
    intro x hx
    rw [mem_seenAfter]
    exact Or.inr hx
  simp only [sections, List.map_cons, List.map_nil, concat, String.append_empty]
  rw [emitted_of_seen _ _ hseen]
  rfl

/-- Witness of C4 on the request Go, Go. -/
theorem Combine_twice_second_section_witness :
    Combine latinLower goPython ["Go", "Go"] =
      (combineHeader ["Go", "Go"] ++
        (sectionText (goTemplate, emitted [] (Split goTemplate.Content '\n')) ++
          ("### " ++ goTemplate.Name ++ " ###\n" ++
            linesText ((Split goTemplate.Content '\n').filter isCommentOrBlank) ++ "\n")),
        none) :=
  Combine_twice_second_section latinLower goPython "Go" goTemplate (by decide)

/-- C5: when Combine succeeds there is one section per requested name, in
order, and in every section the comment and blank lines written are exactly the
comment and blank lines of the content of its template, untrimmed and in the
original order, whatever the earlier sections wrote. -/
theorem Combine_keeps_comments (lower : Char → Char) (m : Manager) (names : List String)
    (h : (Combine lower m names).2 = none) :
    ∃ ts, List.Forall₂ (fun n t => mapGet m.templates (ToLower lower n) = some t) names ts ∧
      (Combine lower m names).1 =
        combineHeader names ++ concat ((sections [] ts).map sectionText) ∧
      (sections [] ts).map Prod.fst = ts ∧
      ∀ sec ∈ sections [] ts,
        sec.2.filter isCommentOrBlank =
          (Split sec.1.Content '\n').filter isCommentOrBlank := by
  obtain ⟨ts, hr, hc⟩ := Combine_of_success lower m names h
  exact ⟨ts, resolveAll_forall₂ lower m names ts hr, by rw [hc], sections_map_fst ts [],
    sections_comments ts []⟩

/-- Witness of C5 on the request Go, Go. -/
theorem Combine_keeps_comments_witness :
    ∃ ts, List.Forall₂ (fun n t => mapGet goPython.templates (ToLower latinLower n) = some t)
        ["Go", "Go"] ts ∧
      (Combine latinLower goPython ["Go", "Go"]).1 =
        combineHeader ["Go", "Go"] ++ concat ((sections [] ts).map sectionText) ∧
      (sections [] ts).map Prod.fst = ts ∧
      ∀ sec ∈ sections [] ts,
        sec.2.filter isCommentOrBlank =
          (Split sec.1.Content '\n').filter isCommentOrBlank :=
  Combine_keeps_comments latinLower goPython ["Go", "Go"] (by decide)

/-- C6: when Combine succeeds the names resolve, in order, to templates ts, and
the text after the header is the concatenation, in the order of the request, of
the sections `sections [] ts`, one per element of the list: the section of an
element is the line "### Name ###" of the template the element resolves to, the
lines written for that template, and one added blank line. -/
theorem Combine_one_section_per_name (lower : Char → Char) (m : Manager)
    (names : List String) (h : (Combine lower m names).2 = none) :
    ∃ ts : List Template,
      List.Forall₂ (fun n t => mapGet m.templates (ToLower lower n) = some t) names ts ∧
      (sections [] ts).length = names.length ∧
      (sections [] ts).map Prod.fst = ts ∧
      (Combine lower m names).1 =
        combineHeader names ++
          concat ((sections [] ts).map (fun sec =>
            "### " ++ sec.1.Name ++ " ###\n" ++ linesText sec.2 ++ "\n")) := by
  obtain ⟨ts, hr, hc⟩ := Combine_of_success lower m names h
  have hf := resolveAll_forall₂ lower m names ts hr
  have hfst := sections_map_fst ts []
  have hlen : (sections [] ts).length = names.length := by
    have h1 := congrArg List.length hfst
    rw [List.length_map] at h1
    rw [h1]
    exact hf.length_eq.symm
  refine ⟨ts, hf, hlen, hfst, ?_⟩
  rw [hc]
  rfl

/-- Witness of C6 on the request Go, Python, Go: three sections, the third with
the comment and blank lines of Go only. -/
theorem Combine_one_section_per_name_witness :
    (∃ ts : List Template,
      List.Forall₂ (fun n t => mapGet goPython.templates (ToLower latinLower n) = some t)
        ["Go", "Python", "Go"] ts ∧
      (sections [] ts).length = ["Go", "Python", "Go"].length ∧
      (sections [] ts).map Prod.fst = ts ∧
      (Combine latinLower goPython ["Go", "Python", "Go"]).1 =
        combineHeader ["Go", "Python", "Go"] ++
          concat ((sections [] ts).map (fun sec =>
            "### " ++ sec.1.Name ++ " ###\n" ++ linesText sec.2 ++ "\n"))) ∧
    sections [] [goTemplate, pythonTemplate, goTemplate] =
      [(goTemplate, ["*.exe", "*.o", "# build", ""]),
       (pythonTemplate, ["*.pyc", "__pycache__/", ""]),
       (goTemplate, ["# build", ""])] :=
  ⟨Combine_one_section_per_name latinLower goPython ["Go", "Python", "Go"] (by decide),
    by decide⟩

/-- C7, as stated, fails: no fixed text before and after the joined names gives
the header of both the request Go and the request Python, since the line
"# Generated:" of the header changes with the request as well. -/
theorem Combine_header_not_fixed_around_names :
    ¬ ∃ pre post : String,
      (Combine latinLower goPython ["Go"]).1 =
        pre ++ Join ["Go"] ", " ++ post ++
          concat ((sections [] [goTemplate]).map sectionText) ∧
      (Combine latinLower goPython ["Python"]).1 =
        pre ++ Join ["Python"] ", " ++ post ++
          concat ((sections [] [pythonTemplate]).map sectionText) := by
  rintro ⟨pre, post, h1, h2⟩
  have e1 := congrArg String.length h1
  have e2 := congrArg String.length h2
  have l1 : (Combine latinLower goPython ["Go"]).1.length = 86 := by decide
  have l2 : (Combine latinLower goPython ["Python"]).1.length = 99 := by decide
  have s1 : (concat ((sections [] [goTemplate]).map sectionText)).length = 31 := by decide
  have s2 : (concat ((sections [] [pythonTemplate]).map sectionText)).length = 36 := by decide
  have j1 : (Join ["Go"] ", ").length = 2 := by decide
  have j2 : (Join ["Python"] ", ").length = 6 := by decide
  simp only [String.length_append, l1, s1, j1] at e1
  simp only [String.length_append, l2, s2, j2] at e2
  omega

/-- C7, amended: when Combine succeeds the document begins with the line
"# Combined .gitignore", the line "# Generated: " followed by `filepath.Base` of
the requested names joined by ", ", the line "# Templates: " followed by the
requested names joined by ", " as they were supplied, and a blank line; the
sections follow. -/
theorem Combine_header_block (lower : Char → Char) (m : Manager) (names : List String)
    (h : (Combine lower m names).2 = none) :
    ∃ ts, resolveAll lower m names = some ts ∧
      (Combine lower m names).1 =
        "# Combined .gitignore\n# Generated: " ++ Base (Join names ", ") ++
          "\n# Templates: " ++ Join names ", " ++ "\n\n" ++
          concat ((sections [] ts).map sectionText) := by
  obtain ⟨ts, hr, hc⟩ := Combine_of_success lower m names h
  exact ⟨ts, hr, by rw [hc]; rfl⟩

/-- Witness of C7 amended on the request Go, Go: both lines read "Go, Go". -/
theorem Combine_header_block_witness :
    (Join ["Go", "Go"] ", " = "Go, Go" ∧ Base (Join ["Go", "Go"] ", ") = "Go, Go") ∧
    ∃ ts, resolveAll latinLower goPython ["Go", "Go"] = some ts ∧
      (Combine latinLower goPython ["Go", "Go"]).1 =
        "# Combined .gitignore\n# Generated: " ++ Base (Join ["Go", "Go"] ", ") ++
          "\n# Templates: " ++ Join ["Go", "Go"] ", " ++ "\n\n" ++
          concat ((sections [] ts).map sectionText) :=
  ⟨by decide, Combine_header_block latinLower goPython ["Go", "Go"] (by decide)⟩

/-- C8: on the empty list of names Combine returns no error: the result is the
header alone, with "." on its line "# Generated:" and no name on its line
"# Templates:". -/
theorem Combine_empty_list (lower : Char → Char) (m : Manager) :
    Combine lower m [] =
      ("# Combined .gitignore\n# Generated: .\n# Templates: \n\n", none) := by
  have hh : combineHeader [] = "# Combined .gitignore\n# Generated: .\n# Templates: \n\n" := by
    decide
  simp [Combine, combineLoop, hh]

/-! ## Maps -/

theorem mem_of_mapGet {α : Type} (m : List (String × α)) (k : String) (v : α)
    (h : mapGet m k = some v) : (k, v) ∈ m := by
  induction m with
  | nil => simp [mapGet] at h
  | cons p rest ih =>
    obtain ⟨k', v'⟩ := p
    by_cases hk : k' = k
    · simp [mapGet, hk] at h
      subst hk
      subst h
      exact List.mem_cons_self _ _
    · simp [mapGet, hk] at h
      exact List.mem_cons_of_mem _ (ih h)

theorem mapGet_of_mem {α : Type} (m : List (String × α)) (k : String) (v : α)
    (hnd : (m.map Prod.fst).Nodup) (h : (k, v) ∈ m) : mapGet m k = some v := by
  induction m with
  | nil => simp at h
  | cons p rest ih =>
    obtain ⟨k', v'⟩ := p
    simp only [List.map_cons, List.nodup_cons] at hnd
    rcases List.mem_cons.mp h with h | h
    · simp only [Prod.mk.injEq] at h
      simp [mapGet, h.1, h.2]
    · have hne : k' ≠ k := by
        intro hk
        subst hk
        exact hnd.1 (List.mem_map.mpr ⟨(k', v), h, rfl⟩)
      simp [mapGet, hne, ih hnd.2 h]

theorem mapGet_eq_none_iff {α : Type} (m : List (String × α)) (k : String) :
    mapGet m k = none ↔ k ∉ m.map Prod.fst := by
  induction m with
  | nil => simp [mapGet]
  | cons p rest ih =>
    obtain ⟨k', v'⟩ := p
    by_cases hk : k' = k
    · simp [mapGet, hk]
    · simp only [mapGet, hk, if_false, ih, List.map_cons, List.mem_cons]
      constructor
      · rintro h (h' | h')
        · exact hk h'.symm
        · exact h h'
      · intro h h'
        exact h (Or.inr h')

theorem mem_mapSet {α : Type} (m : List (String × α)) (k : String) (v : α)
    (p : String × α) (h : p ∈ mapSet m k v) : p = (k, v) ∨ p ∈ m := by
  induction m with
  | nil =>
    simp [mapSet] at h
    exact Or.inl h
  | cons q rest ih =>
    obtain ⟨k', v'⟩ := q
    by_cases hk : k' = k
    · simp only [mapSet, hk, if_true, List.mem_cons] at h
      rcases h with h | h
      · exact Or.inl h
      · exact Or.inr (List.mem_cons_of_mem _ h)
    · simp only [mapSet, hk, if_false, List.mem_cons] at h
      rcases h with h | h
      · exact Or.inr (h ▸ List.mem_cons_self _ _)
      · rcases ih h with h | h
        · exact Or.inl h
        · exact Or.inr (List.mem_cons_of_mem _ h)

theorem mem_keys_mapSet {α : Type} (m : List (String × α)) (k : String) (v : α)
    (x : String) (h : x ∈ (mapSet m k v).map Prod.fst) : x = k ∨ x ∈ m.map Prod.fst := by
  obtain ⟨p, hp, rfl⟩ := List.mem_map.mp h
  rcases mem_mapSet m k v p hp with h | h
  · exact Or.inl (by rw [h])
  · exact Or.inr (List.mem_map.mpr ⟨p, h, rfl⟩)

theorem mapSet_keys_nodup {α : Type} (m : List (String × α)) (k : String) (v : α)
    (hnd : (m.map Prod.fst).Nodup) : ((mapSet m k v).map Prod.fst).Nodup := by
  induction m with
  | nil => simp [mapSet]
  | cons q rest ih =>
    obtain ⟨k', v'⟩ := q
    simp only [List.map_cons, List.nodup_cons] at hnd
    by_cases hk : k' = k
    · subst hk
      simpa [mapSet] using hnd
    · simp only [mapSet, hk, if_false, List.map_cons, List.nodup_cons]
      refine ⟨?_, ih hnd.2⟩
      intro hmem
      rcases mem_keys_mapSet rest k v k' hmem with h | h
      · exact hk h
      · exact hnd.1 h

/-! ## The loader keeps the primary index keyed by lowercase name -/

theorem visit_templates (lower : Char → Char) (m m' : Manager) (e : WalkEntry)
    (h : visit lower m e = .ok m') :
    m'.templates = m.templates ∨
      ∃ (key : String) (tmpl : Template),
        m'.templates = mapSet m.templates key tmpl ∧ key = ToLower lower tmpl.Name := by
  unfold visit at h
  cases hw : e.walkErr with
  | some err => simp [hw] at h
  | none =>
    simp only [hw] at h
    by_cases hd : e.isDir = true
    · simp only [hd, if_true, Except.ok.injEq] at h
      exact Or.inl (by rw [h])
    · simp only [hd] at h
      by_cases hs : (!HasSuffix e.name ".gitignore") = true
      · simp only [hs, if_true, Except.ok.injEq] at h
        simp at h
        exact Or.inl (by rw [h])
      · simp only [hs] at h
        cases hr : e.readErr with
        | some err => simp [hr] at h
        | none =>
          simp only [hr] at h
          simp at h
          right
          subst h
          exact ⟨_, _, rfl, rfl⟩

theorem visit_keyed (lower : Char → Char) (m m' : Manager) (e : WalkEntry)
    (hm : KeyedByLower lower m) (h : visit lower m e = .ok m') : KeyedByLower lower m' := by
  rcases visit_templates lower m m' e h with ht | ⟨key, tmpl, ht, hkey⟩
  · unfold KeyedByLower
    rw [ht]
    exact hm
  · unfold KeyedByLower
    rw [ht]
    refine ⟨mapSet_keys_nodup _ _ _ hm.1, ?_⟩
    intro p hp
    rcases mem_mapSet _ _ _ p hp with h | h
    · rw [h]
      exact hkey
    · exact hm.2 p h

theorem loadTemplates_keyed (lower : Char → Char) (walk : List WalkEntry) :
    ∀ m m', KeyedByLower lower m → loadTemplates lower m walk = .ok m' →
      KeyedByLower lower m' := by
  induction walk with
  | nil =>
    intro m m' hm h
    simp only [loadTemplates, Except.ok.injEq] at h
    exact h ▸ hm
  | cons e rest ih =>
    intro m m' hm h
    unfold loadTemplates at h
    cases hv : visit lower m e with
    | error err => simp [hv] at h
    | ok m1 =>
      simp only [hv] at h
      exact ih m1 m' (visit_keyed lower m m1 e hm hv) h

theorem New_keyed (lower : Char → Char) (walk : List WalkEntry) (m : Manager)
    (h : New lower walk = (some m, none)) : KeyedByLower lower m := by
  unfold New at h
  cases hl : loadTemplates lower { templates := [], categories := [] } walk with
  | error err => simp [hl] at h
  | ok m1 =>
    simp only [hl, Prod.mk.injEq, Option.some.injEq, and_true] at h
    subst h
    refine loadTemplates_keyed lower walk _ _ ?_ hl
    exact ⟨by simp, by simp⟩

theorem Get_of_mem (lower : Char → Char) (m : Manager) (hm : KeyedByLower lower m)
    (p : String × Template) (hp : p ∈ m.templates) (n : String)
    (hn : ToLower lower n = ToLower lower p.2.Name) : Get lower m n = (some p.2, none) := by
  have hk := hm.2 p hp
  have hg : mapGet m.templates (ToLower lower n) = some p.2 := by
    apply mapGet_of_mem _ _ _ hm.1
    rw [hn, ← hk]
    exact hp
  simp [Get, hg]

/-! ## Claims on Get -/

/-- C9: on a catalog built by the loader, Get of a name n succeeds exactly
when some template of the catalog has a name with the same lowercase form as n;
it then returns a template of the catalog whose lowercase name is the lowercase
form of n, and otherwise it returns no template and the error
"template not found: " followed by n. -/
theorem Get_succeeds_iff_name_matches (lower : Char → Char) (walk : List WalkEntry)
    (m : Manager) (h : New lower walk = (some m, none)) (n : String) :
    ((Get lower m n).2 = none ↔
      ∃ p ∈ m.templates, ToLower lower p.2.Name = ToLower lower n) ∧
    ((∃ p ∈ m.templates, ToLower lower p.2.Name = ToLower lower n) →
      ∃ T, Get lower m n = (some T, none) ∧ T ∈ m.templates.map Prod.snd ∧
        ToLower lower T.Name = ToLower lower n) ∧
    ((¬ ∃ p ∈ m.templates, ToLower lower p.2.Name = ToLower lower n) →
      Get lower m n = (none, some ("template not found: " ++ n))) := by
  have hm := New_keyed lower walk m h
  have hyes : (∃ p ∈ m.templates, ToLower lower p.2.Name = ToLower lower n) →
      ∃ T, Get lower m n = (some T, none) ∧ T ∈ m.templates.map Prod.snd ∧
        ToLower lower T.Name = ToLower lower n := by
    rintro ⟨p, hp, hpn⟩
    exact ⟨p.2, Get_of_mem lower m hm p hp n hpn.symm, List.mem_map.mpr ⟨p, hp, rfl⟩, hpn⟩
  have hno : (¬ ∃ p ∈ m.templates, ToLower lower p.2.Name = ToLower lower n) →
      Get lower m n = (none, some ("template not found: " ++ n)) := by
    intro hne
    cases hg : mapGet m.templates (ToLower lower n) with
    | none => simp [Get, hg]
    | some T =>
      exfalso
      apply hne
      have hmem := mem_of_mapGet _ _ _ hg
      exact ⟨_, hmem, (hm.2 _ hmem).symm⟩
  refine ⟨?_, hyes, hno⟩
  constructor
  · intro hok
    by_contra hne
    rw [hno hne] at hok
    simp at hok
  · intro hex
    obtain ⟨T, hT, _⟩ := hyes hex
    rw [hT]

/-- Witness of C9 on the catalog of `sampleWalk` and the name "VIM". -/
theorem Get_succeeds_iff_name_matches_witness :
    ((Get latinLower sampleCatalog "VIM").2 = none ↔
      ∃ p ∈ sampleCatalog.templates, ToLower latinLower p.2.Name = ToLower latinLower "VIM") ∧
    ((∃ p ∈ sampleCatalog.templates, ToLower latinLower p.2.Name = ToLower latinLower "VIM") →
      ∃ T, Get latinLower sampleCatalog "VIM" = (some T, none) ∧
        T ∈ sampleCatalog.templates.map Prod.snd ∧
        ToLower latinLower T.Name = ToLower latinLower "VIM") ∧
    ((¬ ∃ p ∈ sampleCatalog.templates, ToLower latinLower p.2.Name = ToLower latinLower "VIM") →
      Get latinLower sampleCatalog "VIM" = (none, some ("template not found: " ++ "VIM"))) :=
  Get_succeeds_iff_name_matches latinLower sampleWalk sampleCatalog (by decide) "VIM"

/-- C10, as stated, fails: the loader builds `microCatalog` from a file named
by the micro sign U+00B5; Get of that name returns the template, and Get of its
uppercase form, the Greek capital mu U+039C, whose lowercase form is U+03BC,
returns "template not found". -/
theorem Get_uppercase_name_not_found :
    New latinLower microWalk = (some microCatalog, none) ∧
    microTemplate ∈ microCatalog.templates.map Prod.snd ∧
    Get latinLower microCatalog microTemplate.Name = (some microTemplate, none) ∧
    Get latinLower microCatalog (ToUpper latinUpper microTemplate.Name) =
      (none, some "template not found: \u039c") ∧
    ¬ (Get latinLower microCatalog (ToUpper latinUpper microTemplate.Name) =
        Get latinLower microCatalog microTemplate.Name) := by
  decide

theorem mapGet_of_Get (lower : Char → Char) (m : Manager) (n : String) (T : Template)
    (h : Get lower m n = (some T, none)) : mapGet m.templates (ToLower lower n) = some T := by
  unfold Get at h
  cases hg : mapGet m.templates (ToLower lower n) with
  | none => simp [hg] at h
  | some T' =>
    simp only [hg, Prod.mk.injEq, Option.some.injEq, and_true] at h
    rw [h]

theorem Get_eq_iff_key (lower : Char → Char) (m : Manager) (hm : KeyedByLower lower m)
    (p : String × Template) (hp : p ∈ m.templates) (n : String) :
    Get lower m n = (some p.2, none) ↔ ToLower lower n = ToLower lower p.2.Name := by
  constructor
  · intro hg
    have hmem := mem_of_mapGet _ _ _ (mapGet_of_Get lower m n p.2 hg)
    exact hm.2 _ hmem
  · exact Get_of_mem lower m hm p hp n

/-- C10, amended: on a catalog built by the loader, for every template T of
the catalog Get of T.Name succeeds and returns T.  Get of the uppercase form of
T.Name returns T exactly when that form has the lowercase form of T.Name, as it
has when every rune c of T.Name has lower (upper c) = lower c; Get of the
lowercase form of T.Name returns T exactly when lowercasing it again changes
nothing, as is the case when every rune c of T.Name has lower (lower c) =
lower c. -/
theorem Get_case_variants (lower upper : Char → Char) (walk : List WalkEntry)
    (m : Manager) (h : New lower walk = (some m, none)) (T : Template)
    (hT : T ∈ m.templates.map Prod.snd) :
    Get lower m T.Name = (some T, none) ∧
    (Get lower m (ToUpper upper T.Name) = (some T, none) ↔
      ToLower lower (ToUpper upper T.Name) = ToLower lower T.Name) ∧
    (Get lower m (ToLower lower T.Name) = (some T, none) ↔
      ToLower lower (ToLower lower T.Name) = ToLower lower T.Name) ∧
    ((∀ c ∈ T.Name.data, lower (upper c) = lower c) →
      Get lower m (ToUpper upper T.Name) = (some T, none)) ∧
    ((∀ c ∈ T.Name.data, lower (lower c) = lower c) →
      Get lower m (ToLower lower T.Name) = (some T, none)) := by
  have hm := New_keyed lower walk m h
  obtain ⟨p, hp, rfl⟩ := List.mem_map.mp hT
  refine ⟨Get_of_mem lower m hm p hp _ rfl, Get_eq_iff_key lower m hm p hp _,
    Get_eq_iff_key lower m hm p hp _, ?_, ?_⟩
  · intro hup
    apply Get_of_mem lower m hm p hp
    show String.mk _ = String.mk _
    congr 1
    simp only [ToUpper, List.map_map]
    exact List.map_congr_left (fun c hc => hup c hc)
  · intro hlow
    apply Get_of_mem lower m hm p hp
    show String.mk _ = String.mk _
    congr 1
    simp only [ToLower, List.map_map]
    exact List.map_congr_left (fun c hc => hlow c hc)

/-- Witness of C10 amended on the catalog of `microWalk` and its template,
named by the micro sign, and on the catalog of `sampleWalk` and the template
Vim, for which the three calls of Get return the template. -/
theorem Get_case_variants_witness :
    (Get latinLower microCatalog microTemplate.Name = (some microTemplate, none) ∧
      (Get latinLower microCatalog (ToUpper latinUpper microTemplate.Name) =
          (some microTemplate, none) ↔
        ToLower latinLower (ToUpper latinUpper microTemplate.Name) =
          ToLower latinLower microTemplate.Name) ∧
      (Get latinLower microCatalog (ToLower latinLower microTemplate.Name) =
          (some microTemplate, none) ↔
        ToLower latinLower (ToLower latinLower microTemplate.Name) =
          ToLower latinLower microTemplate.Name) ∧
      ((∀ c ∈ microTemplate.Name.data, latinLower (latinUpper c) = latinLower c) →
        Get latinLower microCatalog (ToUpper latinUpper microTemplate.Name) =
          (some microTemplate, none)) ∧
      ((∀ c ∈ microTemplate.Name.data, latinLower (latinLower c) = latinLower c) →
        Get latinLower microCatalog (ToLower latinLower microTemplate.Name) =
          (some microTemplate, none))) ∧
    Get latinLower sampleCatalog vimTemplate.Name = (some vimTemplate, none) ∧
    Get latinLower sampleCatalog (ToUpper latinUpper vimTemplate.Name) =
      (some vimTemplate, none) ∧
    Get latinLower sampleCatalog (ToLower latinLower vimTemplate.Name) =
      (some vimTemplate, none) ∧
    Get latinLower microCatalog (ToLower latinLower microTemplate.Name) =
      (some microTemplate, none) :=
  have hvim := Get_case_variants latinLower latinUpper sampleWalk sampleCatalog (by decide)
    vimTemplate (by decide)
  have hmicro := Get_case_variants latinLower latinUpper microWalk microCatalog (by decide)
    microTemplate (by decide)
  ⟨hmicro, hvim.1, hvim.2.2.2.1 (by decide), hvim.2.2.2.2 (by decide),
    hmicro.2.2.2.2 (by decide)⟩

/-! ## The loader as a fold -/

theorem visit_ok (lower : Char → Char) (m m' : Manager) (e : WalkEntry)
    (h : visit lower m e = .ok m') :
    m' = if qualifies e then store lower m e else m := by
  unfold visit at h
  cases hw : e.walkErr with
  | some err => simp [hw] at h
  | none =>
    simp only [hw] at h
    by_cases hd : e.isDir = true
    · simp only [hd, if_true, Except.ok.injEq] at h
      simp [qualifies, hd, h]
    · simp only [hd] at h
      by_cases hs : HasSuffix e.name ".gitignore" = true
      · simp only [hs] at h
        cases hr : e.readErr with
        | some err => simp [hr] at h
        | none =>
          simp only [hr] at h
          simp at h
          subst h
          simp [qualifies, hd, hs, store, keyOf, templateOf, categoryOf]
      · simp only [hs] at h
        simp at h
        simp [qualifies, hs, h]

theorem visit_of_clean (lower : Char → Char) (m : Manager) (e : WalkEntry)
    (h : loadsCleanly e = true) :
    visit lower m e = .ok (if qualifies e then store lower m e else m) := by
  simp only [loadsCleanly, Bool.and_eq_true, Bool.or_eq_true, Bool.not_eq_true',
    Option.isNone_iff_eq_none] at h
  obtain ⟨hw, hq⟩ := h
  unfold visit
  simp only [hw]
  by_cases hd : e.isDir = true
  · simp [qualifies, hd]
  · by_cases hs : HasSuffix e.name ".gitignore" = true
    · have hqt : qualifies e = true := by simp [qualifies, hd, hs]
      rcases hq with hq | hq
      · rw [hqt] at hq
        exact absurd hq (by simp)
      · simp [hd, hs, hq, hqt, store, keyOf, templateOf, categoryOf]
    · simp [qualifies, hd, hs]

theorem loadTemplates_ok (lower : Char → Char) (walk : List WalkEntry) :
    ∀ m m', loadTemplates lower m walk = .ok m' → m' = loadAll lower m walk := by
  induction walk with
  | nil =>
    intro m m' h
    simp only [loadTemplates, Except.ok.injEq] at h
    simp [loadAll, h]
  | cons e rest ih =>
    intro m m' h
    unfold loadTemplates at h
    cases hv : visit lower m e with
    | error err => simp [hv] at h
    | ok m1 =>
      simp only [hv] at h
      rw [ih m1 m' h, visit_ok lower m m1 e hv]
      simp [loadAll]

theorem loadTemplates_of_clean (lower : Char → Char) (walk : List WalkEntry) :
    ∀ m, (∀ e ∈ walk, loadsCleanly e = true) →
      loadTemplates lower m walk = .ok (loadAll lower m walk) := by
  induction walk with
  | nil =>
    intro m _
    simp [loadTemplates, loadAll]
  | cons e rest ih =>
    intro m h
    unfold loadTemplates
    rw [visit_of_clean lower m e (h e (List.mem_cons_self _ _))]
    simp only
    rw [ih _ (fun e' he' => h e' (List.mem_cons_of_mem _ he'))]
    simp [loadAll]

theorem New_ok (lower : Char → Char) (walk : List WalkEntry) (m : Manager)
    (h : New lower walk = (some m, none)) :
    m = loadAll lower { templates := [], categories := [] } walk := by
  unfold New at h
  cases hl : loadTemplates lower { templates := [], categories := [] } walk with
  | error err => simp [hl] at h
  | ok m1 =>
    simp only [hl, Prod.mk.injEq, Option.some.injEq, and_true] at h
    subst h
    exact loadTemplates_ok lower walk _ _ hl

theorem New_of_clean (lower : Char → Char) (walk : List WalkEntry)
    (h : ∀ e ∈ walk, loadsCleanly e = true) :
    New lower walk = (some (loadAll lower { templates := [], categories := [] } walk), none) := by
  unfold New
  rw [loadTemplates_of_clean lower walk _ h]

theorem loadAll_append (lower : Char → Char) (m : Manager) (xs ys : List WalkEntry) :
    loadAll lower m (xs ++ ys) = loadAll lower (loadAll lower m xs) ys := by
  simp [loadAll, List.foldl_append]

theorem loadAll_cons (lower : Char → Char) (m : Manager) (e : WalkEntry)
    (rest : List WalkEntry) :
    loadAll lower m (e :: rest) =
      loadAll lower (if qualifies e then store lower m e else m) rest := by
  simp [loadAll]

theorem loadAll_invariant (lower : Char → Char) (P : Manager → Prop)
    (walk : List WalkEntry)
    (hstep : ∀ m e, e ∈ walk → qualifies e = true → P m → P (store lower m e)) :
    ∀ m, P m → P (loadAll lower m walk) := by
  induction walk with
  | nil =>
    intro m hm
    simpa [loadAll] using hm
  | cons e rest ih =>
    intro m hm
    rw [loadAll_cons]
    apply ih (fun m' e' he' => hstep m' e' (List.mem_cons_of_mem _ he'))
    by_cases hq : qualifies e = true
    · simpa [hq] using hstep m e (List.mem_cons_self _ _) hq hm
    · simpa [hq] using hm

/-! ## More on maps -/

theorem mapGet_mapSet_self {α : Type} (m : List (String × α)) (k : String) (v : α) :
    mapGet (mapSet m k v) k = some v := by
  induction m with
  | nil => simp [mapSet, mapGet]
  | cons q rest ih =>
    obtain ⟨k', v'⟩ := q
    by_cases hk : k' = k
    · simp [mapSet, mapGet, hk]
    · simp [mapSet, mapGet, hk, ih]

theorem mapGet_mapSet_ne {α : Type} (m : List (String × α)) (k k' : String) (v : α)
    (h : k ≠ k') : mapGet (mapSet m k v) k' = mapGet m k' := by
  induction m with
  | nil => simp [mapSet, mapGet, h]
  | cons q rest ih =>
    obtain ⟨k₀, v₀⟩ := q
    by_cases hk : k₀ = k
    · subst hk
      simp [mapSet, mapGet, h]
    · by_cases hk' : k₀ = k'
      · subst hk'
        simp [mapSet, mapGet, hk]
      · simp [mapSet, mapGet, hk, hk', ih]

theorem mem_keys_of_mapGet {α : Type} (m : List (String × α)) (k : String) (v : α)
    (h : mapGet m k = some v) : k ∈ m.map Prod.fst :=
  List.mem_map.mpr ⟨(k, v), mem_of_mapGet m k v h, rfl⟩

theorem mapGet_isSome_of_mem_keys {α : Type} (m : List (String × α)) (k : String)
    (h : k ∈ m.map Prod.fst) : ∃ v, mapGet m k = some v := by
  cases hg : mapGet m k with
  | none => exact absurd h ((mapGet_eq_none_iff m k).mp hg)
  | some v => exact ⟨v, rfl⟩

/-! ## What the loader keeps true -/

theorem store_categoriesAgree (lower : Char → Char) (m : Manager) (e : WalkEntry)
    (hm : CategoriesAgree m) : CategoriesAgree (store lower m e) := by
  obtain ⟨h1, h2⟩ := hm
  have hold : ∀ T ∈ (mapGet m.categories (categoryOf e)).getD [], T.Category = categoryOf e := by
    intro T hT
    cases hg : mapGet m.categories (categoryOf e) with
    | none => simp [hg] at hT
    | some l =>
      simp only [hg, Option.getD_some] at hT
      exact h1 _ (mem_of_mapGet _ _ _ hg) T hT
  constructor
  · intro p hp T hT
    rcases mem_mapSet _ _ _ p hp with h | h
    · subst h
      rcases List.mem_append.mp hT with hT | hT
      · exact hold T hT
      · simp only [List.mem_singleton] at hT
        subst hT
        rfl
    · exact h1 p h T hT
  · intro p hp
    rcases mem_mapSet _ _ _ p hp with h | h
    · subst h
      exact ⟨_, mapGet_mapSet_self _ _ _, List.mem_append.mpr (Or.inr (List.mem_singleton.mpr rfl))⟩
    · obtain ⟨l, hl, hmem⟩ := h2 p h
      by_cases hc : categoryOf e = p.2.Category
      · refine ⟨(mapGet m.categories (categoryOf e)).getD [] ++ [templateOf lower e], ?_, ?_⟩
        · show mapGet (mapSet m.categories (categoryOf e) _) p.2.Category = _
          rw [← hc]
          exact mapGet_mapSet_self _ _ _
        · rw [hc, hl]
          exact List.mem_append.mpr (Or.inl hmem)
      · refine ⟨l, ?_, hmem⟩
        show mapGet (mapSet m.categories (categoryOf e) _) p.2.Category = _
        rw [mapGet_mapSet_ne _ _ _ _ hc]
        exact hl

theorem New_categoriesAgree (lower : Char → Char) (walk : List WalkEntry) (m : Manager)
    (h : New lower walk = (some m, none)) :
    CategoriesAgree m ∧ (m.categories.map Prod.fst).Nodup := by
  rw [New_ok lower walk m h]
  refine loadAll_invariant lower
    (fun m => CategoriesAgree m ∧ (m.categories.map Prod.fst).Nodup) walk ?_ _ ?_
  · intro m e _ _ hm
    exact ⟨store_categoriesAgree lower m e hm.1, mapSet_keys_nodup _ _ _ hm.2⟩
  · exact ⟨⟨by simp, by simp⟩, by simp⟩

theorem New_sizes (lower : Char → Char) (walk : List WalkEntry) (m : Manager)
    (h : New lower walk = (some m, none)) : SizesAreLengths m := by
  rw [New_ok lower walk m h]
  refine loadAll_invariant lower SizesAreLengths walk ?_ _ ?_
  · intro m e _ _ hm p hp
    rcases mem_mapSet _ _ _ p hp with h | h
    · subst h
      rfl
    · exact hm p h
  · intro p hp
    simp at hp

theorem loadAll_mapGet_of_no_write (lower : Char → Char) (k : String)
    (walk : List WalkEntry) :
    ∀ (m : Manager), (∀ e ∈ walk, qualifies e = true → keyOf lower e ≠ k) →
      mapGet (loadAll lower m walk).templates k = mapGet m.templates k := by
  induction walk with
  | nil =>
    intro m _
    simp [loadAll]
  | cons e rest ih =>
    intro m h
    rw [loadAll_cons, ih _ (fun e' he' => h e' (List.mem_cons_of_mem _ he'))]
    by_cases hq : qualifies e = true
    · simp only [hq, if_true]
      exact mapGet_mapSet_ne _ _ _ _ (h e (List.mem_cons_self _ _) hq)
    · simp [hq]

theorem loadAll_last_write (lower : Char → Char) (m : Manager) (pre post : List WalkEntry)
    (e : WalkEntry) (hq : qualifies e = true)
    (hpost : ∀ e' ∈ post, qualifies e' = true → keyOf lower e' ≠ keyOf lower e) :
    mapGet (loadAll lower m (pre ++ e :: post)).templates (keyOf lower e) =
      some (templateOf lower e) := by
  rw [loadAll_append, loadAll_cons, loadAll_mapGet_of_no_write lower _ post _ hpost]
  simp only [hq, if_true]
  exact mapGet_mapSet_self _ _ _

/-! ## Strings -/

theorem Get_of_mapGet (lower : Char → Char) (m : Manager) (n : String) (T : Template)
    (h : mapGet m.templates (ToLower lower n) = some T) : Get lower m n = (some T, none) := by
  simp [Get, h]

/-- C19: when a walk without read errors holds two pattern files whose names
have the same lowercase form, and no later pattern file has that key, New
returns a catalog and no error, the key occurs once in the primary index, and
Get of either name returns the template built from the later file. -/
theorem load_last_write_wins (lower : Char → Char) (pre mid post : List WalkEntry)
    (e1 e2 : WalkEntry)
    (hclean : ∀ e ∈ pre ++ e1 :: (mid ++ e2 :: post), loadsCleanly e = true)
    (h1 : qualifies e1 = true) (h2 : qualifies e2 = true)
    (hkey : keyOf lower e1 = keyOf lower e2)
    (hpost : ∀ e ∈ post, qualifies e = true → keyOf lower e ≠ keyOf lower e2) :
    ∃ m, New lower (pre ++ e1 :: (mid ++ e2 :: post)) = (some m, none) ∧
      (m.templates.map Prod.fst).count (keyOf lower e2) = 1 ∧
      Get lower m (TrimSuffix e1.name ".gitignore") = (some (templateOf lower e2), none) ∧
      Get lower m (TrimSuffix e2.name ".gitignore") = (some (templateOf lower e2), none) := by
  have _ := h1
  have hnew := New_of_clean lower _ hclean
  refine ⟨_, hnew, ?_⟩
  have hm := New_keyed lower _ _ hnew
  have hget : mapGet (loadAll lower { templates := [], categories := [] }
      (pre ++ e1 :: (mid ++ e2 :: post))).templates (keyOf lower e2) =
        some (templateOf lower e2) := by
    have hw : pre ++ e1 :: (mid ++ e2 :: post) = (pre ++ e1 :: mid) ++ e2 :: post := by simp
    rw [hw]
    exact loadAll_last_write lower _ _ post e2 h2 hpost
  refine ⟨?_, ?_, ?_⟩
  · exact List.count_eq_one_of_mem hm.1 (mem_keys_of_mapGet _ _ _ hget)
  · apply Get_of_mapGet
    show mapGet _ (keyOf lower e1) = _
    rw [hkey]
    exact hget
  · exact Get_of_mapGet lower _ _ _ hget

/-- Witness of C19 on the walk over Global/go.gitignore and Go.gitignore. -/
theorem load_last_write_wins_witness :
    ∃ m, New latinLower ([rootEntry, globalEntry] ++ lowerGoEntry :: ([] ++ upperGoEntry :: []))
        = (some m, none) ∧
      (m.templates.map Prod.fst).count (keyOf latinLower upperGoEntry) = 1 ∧
      Get latinLower m (TrimSuffix lowerGoEntry.name ".gitignore") =
        (some (templateOf latinLower upperGoEntry), none) ∧
      Get latinLower m (TrimSuffix upperGoEntry.name ".gitignore") =
        (some (templateOf latinLower upperGoEntry), none) :=
  load_last_write_wins latinLower [rootEntry, globalEntry] [] [] lowerGoEntry upperGoEntry
    (by decide) (by decide) (by decide) (by decide) (by decide)

/-- C20: after a successful load no category label has two lists, and every
template of the primary index is in the list stored under its own Category
field and in the list of no other label. -/
theorem load_one_category_list (lower : Char → Char) (walk : List WalkEntry) (m : Manager)
    (h : New lower walk = (some m, none)) :
    (m.categories.map Prod.fst).Nodup ∧
    ∀ T ∈ ListAll m,
      (∃ l, mapGet m.categories T.Category = some l ∧ T ∈ l) ∧
      T ∈ GetByCategory m T.Category ∧
      ∀ p ∈ m.categories, T ∈ p.2 → p.1 = T.Category := by
  obtain ⟨⟨hc1, hc2⟩, hnd⟩ := New_categoriesAgree lower walk m h
  refine ⟨hnd, ?_⟩
  intro T hT
  obtain ⟨p, hp, rfl⟩ := List.mem_map.mp hT
  obtain ⟨l, hl, hmem⟩ := hc2 p hp
  refine ⟨⟨l, hl, hmem⟩, ?_, ?_⟩
  · simp [GetByCategory, hl, hmem]
  · intro q hq hTq
    exact (hc1 q hq p.2 hTq).symm

/-- Witness of C20 on the catalog of `sampleWalk`. -/
theorem load_one_category_list_witness :
    (sampleCatalog.categories.map Prod.fst).Nodup ∧
    ∀ T ∈ ListAll sampleCatalog,
      (∃ l, mapGet sampleCatalog.categories T.Category = some l ∧ T ∈ l) ∧
      T ∈ GetByCategory sampleCatalog T.Category ∧
      ∀ p ∈ sampleCatalog.categories, T ∈ p.2 → p.1 = T.Category :=
  load_one_category_list latinLower sampleWalk sampleCatalog (by decide)

/-! ## Search -/

theorem mem_searchTags (query : String) (tmpl T : Template) (results : List Template)
    (tags : List String) :
    T ∈ searchTags query tmpl results tags ↔
      T ∈ results ∨ (T = tmpl ∧ ∃ tag ∈ tags, Contains tag query = true) := by
  induction tags with
  | nil => simp [searchTags]
  | cons tag rest ih =>
    by_cases hc : Contains tag query = true
    · simp [searchTags, hc]
    · simp [searchTags, hc, ih]

theorem mem_searchStep (lower : Char → Char) (query : String) (results : List Template)
    (tmpl T : Template) :
    T ∈ searchStep lower query results tmpl ↔
      T ∈ results ∨ (T = tmpl ∧
        (Contains (ToLower lower tmpl.Name) query = true ∨
          Contains (ToLower lower tmpl.Category) query = true ∨
          (∃ tag ∈ tmpl.Tags, Contains tag query = true) ∨
          Contains (ToLower lower tmpl.Description) query = true)) := by
  unfold searchStep
  by_cases hn : Contains (ToLower lower tmpl.Name) query = true
  · simp [hn]
  · by_cases hc : Contains (ToLower lower tmpl.Category) query = true
    · simp [hn, hc]
    · by_cases hd : Contains (ToLower lower tmpl.Description) query = true
      · simp only [hn, hc, hd, if_true, List.mem_append, List.mem_singleton, mem_searchTags]
        simp only [Bool.false_eq_true, if_false, List.mem_append, List.mem_singleton,
          mem_searchTags, false_or, or_true, and_true]
        tauto
      · simp only [hn, hc, hd, mem_searchTags]
        simp only [Bool.false_eq_true, if_false, mem_searchTags, false_or, or_false]

theorem mem_foldl_searchStep (lower : Char → Char) (query : String) (T : Template)
    (ts : List Template) :
    ∀ results, T ∈ ts.foldl (searchStep lower query) results ↔
      T ∈ results ∨ (T ∈ ts ∧
        (Contains (ToLower lower T.Name) query = true ∨
          Contains (ToLower lower T.Category) query = true ∨
          (∃ tag ∈ T.Tags, Contains tag query = true) ∨
          Contains (ToLower lower T.Description) query = true)) := by
  induction ts with
  | nil => simp
  | cons t rest ih =>
    intro results
    rw [List.foldl_cons, ih, mem_searchStep]
    constructor
    · rintro ((h | ⟨h, hm⟩) | ⟨h, hm⟩)
      · exact Or.inl h
      · exact Or.inr ⟨h ▸ List.mem_cons_self _ _, h ▸ hm⟩
      · exact Or.inr ⟨List.mem_cons_of_mem _ h, hm⟩
    · rintro (h | ⟨h, hm⟩)
      · exact Or.inl (Or.inl h)
      · rcases List.mem_cons.mp h with h | h
        · exact Or.inl (Or.inr ⟨h, h ▸ hm⟩)
        · exact Or.inr ⟨h, hm⟩

theorem Contains_empty (s : String) : Contains s "" = true := by
  unfold Contains
  cases hs : s.data with
  | nil => rfl
  | cons c cs => simp [List.tails]

theorem foldl_searchStep_empty (lower : Char → Char) (ts : List Template) :
    ∀ results, ts.foldl (searchStep lower "") results = results ++ ts := by
  induction ts with
  | nil => simp
  | cons t rest ih =>
    intro results
    rw [List.foldl_cons, ih]
    simp [searchStep, Contains_empty]

/-- C12: a template is in the result of Search exactly when it is a template
of the catalog and the lowercase query is a substring of its lowercase name, of
its lowercase category, of one of its tags, or of its lowercase description;
two queries with the same lowercase form give the same result, as "GO" and "go"
do. -/
theorem Search_mem_iff (lower : Char → Char) (m : Manager) (q : String) (T : Template) :
    (T ∈ Search lower m q ↔
      T ∈ ListAll m ∧
        (Contains (ToLower lower T.Name) (ToLower lower q) = true ∨
          Contains (ToLower lower T.Category) (ToLower lower q) = true ∨
          (∃ tag ∈ T.Tags, Contains tag (ToLower lower q) = true) ∨
          Contains (ToLower lower T.Description) (ToLower lower q) = true)) ∧
    (∀ q', ToLower lower q' = ToLower lower q → Search lower m q' = Search lower m q) ∧
    Search latinLower m "GO" = Search latinLower m "go" := by
  refine ⟨?_, ?_, ?_⟩
  · unfold Search ListAll
    rw [mem_foldl_searchStep]
    simp
  · intro q' hq
    unfold Search
    rw [hq]
  · have : ToLower latinLower "GO" = ToLower latinLower "go" := by decide
    unfold Search
    rw [this]

/-- C13: the loader builds `nodeCatalog` from the one file Node.gitignore, and
Search for "npm" returns its template twice: the match on the tag "npm" leaves
the loop over the tags only, and the description, which holds "npm" as well,
appends the template again. -/
theorem Search_returns_template_twice :
    New latinLower nodeWalk = (some nodeCatalog, none) ∧
    Search latinLower nodeCatalog "npm" = [nodeTemplate, nodeTemplate] ∧
    (Search latinLower nodeCatalog "npm").count nodeTemplate = 2 := by
  decide

/-- C14: Search for the empty query returns every template of the catalog,
each once: the result is a permutation of ListAll and has its length. -/
theorem Search_empty_query (lower : Char → Char) (m : Manager) :
    (∀ T ∈ ListAll m, T ∈ Search lower m "") ∧
    (Search lower m "").length = (ListAll m).length ∧
    (Search lower m "").Perm (ListAll m) := by
  have h : Search lower m "" = ListAll m := by
    have hl : ToLower lower "" = "" := rfl
    simp [Search, ListAll, hl, foldl_searchStep_empty]
  rw [h]
  exact ⟨fun T hT => hT, rfl, List.Perm.refl _⟩

/-! ## Categories, listing and statistics -/

/-- C15: GetByCategory returns the list stored under a label that is a category
of the catalog, and the empty list, never an error, for any other label. -/
theorem GetByCategory_stored_or_empty (m : Manager) (c : String) :
    (∀ l, mapGet m.categories c = some l → GetByCategory m c = l) ∧
    (c ∈ GetCategories m → ∃ l, (c, l) ∈ m.categories ∧ GetByCategory m c = l) ∧
    (c ∉ GetCategories m → GetByCategory m c = []) := by
  refine ⟨?_, ?_, ?_⟩
  · intro l hl
    simp [GetByCategory, hl]
  · intro hc
    obtain ⟨l, hl⟩ := mapGet_isSome_of_mem_keys _ _ hc
    exact ⟨l, mem_of_mapGet _ _ _ hl, by simp [GetByCategory, hl]⟩
  · intro hc
    have := (mapGet_eq_none_iff m.categories c).mpr hc
    simp [GetByCategory, this]

/-- C16: the loader builds `sampleCatalog` from a walk that meets
Global/Vim.gitignore before Go.gitignore, and List returns "Vim" before "Go":
the names are not in increasing order, List does not sort them. -/
theorem listNames_not_sorted :
    New latinLower sampleWalk = (some sampleCatalog, none) ∧
    listNames sampleCatalog = ["Vim", "Go"] ∧
    stringLess "Vim" "Go" = false ∧
    increasing (listNames sampleCatalog) = false := by
  decide

theorem sumCounts_increment (counts : List (String × Int)) (k : String) :
    sumCounts (mapSet counts k ((mapGet counts k).getD 0 + 1)) = sumCounts counts + 1 := by
  induction counts with
  | nil => simp [mapSet, mapGet, sumCounts]
  | cons q rest ih =>
    obtain ⟨k', v'⟩ := q
    by_cases hk : k' = k
    · simp only [mapSet, mapGet, hk, if_true, sumCounts, List.map_cons, List.sum_cons,
        Option.getD_some]
      omega
    · simp only [sumCounts] at ih
      simp only [mapSet, mapGet, hk, if_false, sumCounts, List.map_cons, List.sum_cons, ih]
      omega

theorem foldl_statsStep (ts : List Template) :
    ∀ acc : List (String × Int) × Int,
      sumCounts (ts.foldl statsStep acc).1 = sumCounts acc.1 + ts.length ∧
      (ts.foldl statsStep acc).2 = acc.2 + (ts.map (fun T => T.Size)).sum := by
  induction ts with
  | nil => simp
  | cons t rest ih =>
    intro acc
    rw [List.foldl_cons]
    obtain ⟨h1, h2⟩ := ih (statsStep acc t)
    rw [h1, h2]
    simp only [statsStep, sumCounts_increment, List.length_cons, List.map_cons, List.sum_cons]
    constructor
    · push_cast
      omega
    · omega

/-- C17: Stats reports as total_templates the length of ListAll, which is
Count, and the counters of category_breakdown add up to total_templates. -/
theorem Stats_totals (m : Manager) :
    (Stats m).total_templates = (ListAll m).length ∧
    (Stats m).total_templates = Count m ∧
    sumCounts (Stats m).category_breakdown = (Stats m).total_templates := by
  refine ⟨by simp [Stats, ListAll], by simp [Stats, Count], ?_⟩
  have h := (foldl_statsStep (m.templates.map Prod.snd) ([], 0)).1
  simp only [Stats]
  rw [h]
  simp [sumCounts]

/-- C18: on a catalog built by the loader the Size of every template is the
byte length of its Content, and Stats reports as total_size_bytes the sum of the
byte lengths of the contents of all templates. -/
theorem Stats_total_size (lower : Char → Char) (walk : List WalkEntry) (m : Manager)
    (h : New lower walk = (some m, none)) :
    (∀ T ∈ ListAll m, T.Size = T.Content.utf8ByteSize) ∧
    (Stats m).total_size_bytes =
      ((ListAll m).map (fun T => (T.Content.utf8ByteSize : Int))).sum := by
  have hs := New_sizes lower walk m h
  have hall : ∀ T ∈ ListAll m, T.Size = T.Content.utf8ByteSize := by
    intro T hT
    obtain ⟨p, hp, rfl⟩ := List.mem_map.mp hT
    exact hs p hp
  refine ⟨hall, ?_⟩
  have h2 := (foldl_statsStep (m.templates.map Prod.snd) ([], 0)).2
  simp only [Stats]
  rw [h2]
  have : (m.templates.map Prod.snd).map (fun T => T.Size) =
      (ListAll m).map (fun T => (T.Content.utf8ByteSize : Int)) :=
    List.map_congr_left hall
  rw [this]
  simp

/-- Witness of C18 on the catalog of `sampleWalk`: 13 and 18 bytes, 31 in all. -/
theorem Stats_total_size_witness :
    ((∀ T ∈ ListAll sampleCatalog, T.Size = T.Content.utf8ByteSize) ∧
      (Stats sampleCatalog).total_size_bytes =
        ((ListAll sampleCatalog).map (fun T => (T.Content.utf8ByteSize : Int))).sum) ∧
    (Stats sampleCatalog).total_size_bytes = 31 :=
  ⟨Stats_total_size latinLower sampleWalk sampleCatalog (by decide), by decide⟩

/-! ## Claims on read errors, tags, settings and URLs -/

theorem visit_ok_clean (lower : Char → Char) (m m' : Manager) (e : WalkEntry)
    (h : visit lower m e = .ok m') : loadsCleanly e = true := by
  unfold visit at h
  cases hw : e.walkErr with
  | some err => simp [hw] at h
  | none =>
    simp only [hw] at h
    by_cases hd : e.isDir = true
    · simp [loadsCleanly, qualifies, hw, hd]
    · by_cases hs : HasSuffix e.name ".gitignore" = true
      · simp only [hd, hs] at h
        cases hr : e.readErr with
        | some err => simp [hr] at h
        | none => simp [loadsCleanly, hw, hr]
      · simp [loadsCleanly, qualifies, hw, hs]

theorem loadTemplates_ok_clean (lower : Char → Char) (walk : List WalkEntry) :
    ∀ m m', loadTemplates lower m walk = .ok m' → ∀ e ∈ walk, loadsCleanly e = true := by
  induction walk with
  | nil =>
    intro m m' _ e he
    simp at he
  | cons e₀ rest ih =>
    intro m m' h e he
    unfold loadTemplates at h
    cases hv : visit lower m e₀ with
    | error err => simp [hv] at h
    | ok m1 =>
      simp only [hv] at h
      rcases List.mem_cons.mp he with h0 | h0
      · subst h0
        exact visit_ok_clean lower m m1 e hv
      · exact ih m1 m' h e h0

theorem loadTemplates_cons_ok (lower : Char → Char) (m m1 : Manager) (e : WalkEntry)
    (rest : List WalkEntry) (hv : visit lower m e = .ok m1) :
    loadTemplates lower m (e :: rest) = loadTemplates lower m1 rest := by
  simp [loadTemplates, hv]

theorem loadTemplates_cons_error (lower : Char → Char) (m : Manager) (e : WalkEntry)
    (rest : List WalkEntry) (msg : String) (hv : visit lower m e = .error msg) :
    loadTemplates lower m (e :: rest) = .error msg := by
  simp [loadTemplates, hv]

theorem loadTemplates_append_clean (lower : Char → Char) (pre rest : List WalkEntry) :
    ∀ m, (∀ x ∈ pre, loadsCleanly x = true) →
      loadTemplates lower m (pre ++ rest) = loadTemplates lower (loadAll lower m pre) rest := by
  induction pre with
  | nil =>
    intro m _
    simp [loadAll]
  | cons e pre ih =>
    intro m h
    rw [List.cons_append,
      loadTemplates_cons_ok lower m _ e _ (visit_of_clean lower m e (h e (List.mem_cons_self _ _))),
      ih _ (fun x hx => h x (List.mem_cons_of_mem _ hx)), loadAll_cons]

theorem visit_unreadable (lower : Char → Char) (m : Manager) (e : WalkEntry) (err : String)
    (hq : qualifies e = true) (hw : e.walkErr = none) (hr : e.readErr = some err) :
    visit lower m e = .error ("failed to read " ++ e.path ++ ": " ++ err) := by
  simp only [qualifies, Bool.and_eq_true, Bool.not_eq_true'] at hq
  unfold visit
  simp [hw, hq.1, hq.2, hr]

/-- C22: when a pattern file of the walk cannot be read, New returns no
Manager and an error; when it is the first entry of the walk that fails, the
error is "failed to read " followed by its path and the error of the read. -/
theorem New_aborts_on_unreadable (lower : Char → Char) (walk : List WalkEntry)
    (e : WalkEntry) (he : e ∈ walk) (hq : qualifies e = true) (hr : e.readErr ≠ none) :
    (New lower walk).1 = none ∧ (New lower walk).2 ≠ none ∧
    ∀ pre post err, walk = pre ++ e :: post → (∀ x ∈ pre, loadsCleanly x = true) →
      e.walkErr = none → e.readErr = some err →
      New lower walk = (none, some ("failed to read " ++ e.path ++ ": " ++ err)) := by
  have hfail : ∃ msg, loadTemplates lower { templates := [], categories := [] } walk =
      .error msg := by
    cases hl : loadTemplates lower { templates := [], categories := [] } walk with
    | error msg => exact ⟨msg, rfl⟩
    | ok m =>
      exfalso
      have hc := loadTemplates_ok_clean lower walk _ m hl e he
      simp only [loadsCleanly, hq, Bool.and_eq_true, Bool.or_eq_true, Bool.not_eq_true',
        Option.isNone_iff_eq_none] at hc
      rcases hc.2 with h | h
      · simp at h
      · exact hr h
  obtain ⟨msg, hmsg⟩ := hfail
  refine ⟨by simp [New, hmsg], by simp [New, hmsg], ?_⟩
  intro pre post err hwalk hpre hw hre
  subst hwalk
  unfold New
  rw [loadTemplates_append_clean lower pre _ _ hpre,
    loadTemplates_cons_error lower _ e post _ (visit_unreadable lower _ e err hq hw hre)]

/-- Witness of C22 on a walk whose file Global/Vim.gitignore cannot be read. -/
theorem New_aborts_on_unreadable_witness :
    (New latinLower [rootEntry, globalEntry, unreadableEntry, upperGoEntry]).1 = none ∧
    (New latinLower [rootEntry, globalEntry, unreadableEntry, upperGoEntry]).2 ≠ none ∧
    ∀ pre post err,
      [rootEntry, globalEntry, unreadableEntry, upperGoEntry] = pre ++ unreadableEntry :: post →
      (∀ x ∈ pre, loadsCleanly x = true) →
      unreadableEntry.walkErr = none → unreadableEntry.readErr = some err →
      New latinLower [rootEntry, globalEntry, unreadableEntry, upperGoEntry] =
        (none, some ("failed to read " ++ unreadableEntry.path ++ ": " ++ err)) :=
  New_aborts_on_unreadable latinLower [rootEntry, globalEntry, unreadableEntry, upperGoEntry]
    unreadableEntry (by decide) (by decide) (by decide)

/-- C24: the tags of a name and a category are the lowercase name, the
lowercase category and then the entries of the alias table under the lowercase
name, nothing else; the table has the seven entries listed, so "go" adds
"golang", "node" adds "nodejs" and "npm", and a name that is no key of the table
gets the first two tags only. -/
theorem extractTags_exact (lower : Char → Char) (name category : String) :
    extractTags lower name category =
      [ToLower lower name, ToLower lower category] ++
        (mapGet aliases (ToLower lower name)).getD [] ∧
    (ToLower lower name ∉ aliases.map Prod.fst →
      extractTags lower name category = [ToLower lower name, ToLower lower category]) ∧
    aliases =
      [("go", ["golang"]), ("node", ["nodejs", "npm"]), ("python", ["py"]),
       ("javascript", ["js"]), ("typescript", ["ts"]), ("visualstudio", ["vs"]),
       ("visualstudiocode", ["vscode"])] ∧
    extractTags latinLower "Go" "Root" = ["go", "root", "golang"] ∧
    extractTags latinLower "Node" "Global" = ["node", "global", "nodejs", "npm"] ∧
    extractTags latinLower "Vim" "Global" = ["vim", "global"] := by
  refine ⟨?_, ?_, rfl, by decide, by decide, by decide⟩
  · unfold extractTags
    cases hg : mapGet aliases (ToLower lower name) with
    | none => simp
    | some extra => simp
  · intro hno
    have := (mapGet_eq_none_iff aliases (ToLower lower name)).mpr hno
    simp [extractTags, this]

/-- C25: on the table of the default settings, SetSetting of the key
"test.setting", which no row has, returns the error "setting not found" and
leaves the table as it was, and GetSetting of the key then returns the same
error: the UPDATE affects no row and nothing inserts one. -/
theorem SetSetting_new_key_fails :
    SetSetting defaultSettings "test.setting" "test value" =
      (defaultSettings, some "setting not found: test.setting") ∧
    GetSetting (SetSetting defaultSettings "test.setting" "test value").1 "test.setting" =
      ("", some "setting not found: test.setting") ∧
    SetSetting [] "test.setting" "test value" = ([], some "setting not found: test.setting") := by
  decide

/-- C30: for the host "[2001:db8::1]:8443", an address in brackets followed by
a port, buildURL keeps only "[2001" as the host, and only "[" for "[::1]:8080":
the host is cut at its first colon, not at the colon before the port. -/
theorem buildURL_cuts_address_at_first_colon :
    buildURL "https" "[2001:db8::1]:8443" "" = "https://[2001" ∧
    buildURL "http" "[::1]:8080" "3000" = "http://[:3000" ∧
    buildURL "http" "example.com:8080" "3000" = "http://example.com:3000" := by
  decide

theorem resolveAll_congr (lower : Char → Char) (m : Manager) (names1 names2 : List String)
    (h : List.Forall₂ (fun a b => ToLower lower a = ToLower lower b) names1 names2) :
    resolveAll lower m names1 = resolveAll lower m names2 := by
  induction h with
  | nil => rfl
  | cons hab _ ih => simp [resolveAll, hab, ih]

/-- C27: for two lists of names that are element by element equal in lowercase
form, when Combine succeeds on the first it succeeds on the second, both
resolve to the same templates, and the two documents are their own header
followed by the same sections, whose header lines carry the stored names. -/
theorem Combine_same_sections (lower : Char → Char) (m : Manager)
    (names1 names2 : List String)
    (hcase : List.Forall₂ (fun a b => ToLower lower a = ToLower lower b) names1 names2)
    (h1 : (Combine lower m names1).2 = none) :
    ∃ ts, resolveAll lower m names1 = some ts ∧ resolveAll lower m names2 = some ts ∧
      Combine lower m names1 =
        (combineHeader names1 ++ concat ((sections [] ts).map sectionText), none) ∧
      Combine lower m names2 =
        (combineHeader names2 ++ concat ((sections [] ts).map sectionText), none) := by
  obtain ⟨ts, hr, hc⟩ := Combine_of_success lower m names1 h1
  have hr2 : resolveAll lower m names2 = some ts := by
    rw [← resolveAll_congr lower m names1 names2 hcase]
    exact hr
  exact ⟨ts, hr, hr2, hc, combineLoop_of_resolveAll lower m names2 ts _ hr2⟩

/-- Witness of C27 on the requests go and GO: both documents hold the section
header "### Go ###" and differ in the header block only. -/
theorem Combine_same_sections_witness :
    (∃ ts, resolveAll latinLower goPython ["go"] = some ts ∧
      resolveAll latinLower goPython ["GO"] = some ts ∧
      Combine latinLower goPython ["go"] =
        (combineHeader ["go"] ++ concat ((sections [] ts).map sectionText), none) ∧
      Combine latinLower goPython ["GO"] =
        (combineHeader ["GO"] ++ concat ((sections [] ts).map sectionText), none)) ∧
    concat ((sections [] [goTemplate]).map sectionText) =
      "### Go ###\n*.exe\n*.o\n# build\n\n\n" :=
  ⟨Combine_same_sections latinLower goPython ["go"] ["GO"] (by decide) (by decide), by decide⟩

/-! ## Prefixes, suffixes and pieces of strings -/

theorem HasSuffix_append (a b : String) : HasSuffix (a ++ b) b = true := by
  simp [HasSuffix]

theorem TrimSuffix_append (a b : String) : TrimSuffix (a ++ b) b = a := by
  simp [TrimSuffix, HasSuffix_append]

theorem HasPrefix_append (a b : String) : HasPrefix (a ++ b) a = true := by
  simp [HasPrefix]

theorem TrimPrefix_append (a b : String) : TrimPrefix (a ++ b) a = b := by
  simp [TrimPrefix, HasPrefix_append]

theorem any_tails_singleton (c : Char) (l : List Char) :
    l.tails.any (fun t => [c].isPrefixOf t) = true ↔ c ∈ l := by
  induction l with
  | nil => simp [List.isPrefixOf]
  | cons x xs ih =>
    rw [List.tails, List.any_cons, Bool.or_eq_true, ih]
    simp only [List.isPrefixOf, Bool.and_true, beq_iff_eq, List.mem_cons]

theorem Contains_slash (s : String) : Contains s "/" = true ↔ '/' ∈ s.data :=
  any_tails_singleton '/' s.data

theorem splitRunes_ne_nil (sep : Char) (l : List Char) : splitRunes sep l ≠ [] := by
  cases l with
  | nil => simp [splitRunes]
  | cons c cs =>
    unfold splitRunes
    by_cases hc : c = sep
    · simp [hc]
    · simp only [hc, if_false]
      cases splitRunes sep cs <;> simp

theorem splitRunes_head (sep : Char) (a b : List Char) (ha : sep ∉ a) :
    (splitRunes sep (a ++ sep :: b)).head? = some a := by
  induction a with
  | nil => simp [splitRunes]
  | cons c cs ih =>
    have hc : c ≠ sep := fun h => ha (h ▸ List.mem_cons_self _ _)
    have hcs : sep ∉ cs := fun h => ha (List.mem_cons_of_mem _ h)
    have ih' := ih hcs
    rw [List.cons_append]
    unfold splitRunes
    simp only [hc, if_false]
    cases hs : splitRunes sep (cs ++ sep :: b) with
    | nil => exact absurd hs (splitRunes_ne_nil _ _)
    | cons piece pieces =>
      rw [hs] at ih'
      simp only [List.head?_cons, Option.some.injEq] at ih'
      simp [ih']

theorem Split_head (seg rest : String) (h : '/' ∉ seg.data) :
    (Split (seg ++ "/" ++ rest) '/').headD "" = seg := by
  have hd : (seg ++ "/" ++ rest).data = seg.data ++ '/' :: rest.data := by
    simp [String.data_append]
  have hh := splitRunes_head '/' seg.data rest.data h
  unfold Split
  rw [hd]
  cases hs : splitRunes '/' (seg.data ++ '/' :: rest.data) with
  | nil => exact absurd hs (splitRunes_ne_nil _ _)
  | cons piece pieces =>
    rw [hs] at hh
    simp only [List.head?_cons, Option.some.injEq] at hh
    simp [hh]

/-! ## Claims on the path of a resource and on the description -/

/-- C21: a file whose name does not end in ".gitignore" leaves the manager as
it was; a file "data/gitignore/F.gitignore" is stored as a template named F
with category "Root"; a file "data/gitignore/S/...F.gitignore", where S holds
no slash, is stored as a template named F with category S.  The walk
`sampleWalk` shows the three cases. -/
theorem visit_by_path (lower : Char → Char) (m : Manager) :
    (∀ e : WalkEntry, e.walkErr = none → e.isDir = false →
      HasSuffix e.name ".gitignore" = false → visit lower m e = .ok m) ∧
    (∀ (e : WalkEntry) (file : String), e.walkErr = none → e.readErr = none →
      e.isDir = false → '/' ∉ file.data →
      e.path = "data/gitignore/" ++ (file ++ ".gitignore") → e.name = file ++ ".gitignore" →
      visit lower m e = .ok (store lower m e) ∧
      Get lower (store lower m e) file = (some (templateOf lower e), none) ∧
      (templateOf lower e).Name = file ∧ (templateOf lower e).Category = "Root" ∧
      templateOf lower e ∈ GetByCategory (store lower m e) "Root") ∧
    (∀ (e : WalkEntry) (seg rest file : String), e.walkErr = none → e.readErr = none →
      e.isDir = false → '/' ∉ seg.data →
      e.path = "data/gitignore/" ++ (seg ++ "/" ++ rest) → e.name = file ++ ".gitignore" →
      visit lower m e = .ok (store lower m e) ∧
      Get lower (store lower m e) file = (some (templateOf lower e), none) ∧
      (templateOf lower e).Name = file ∧ (templateOf lower e).Category = seg ∧
      templateOf lower e ∈ GetByCategory (store lower m e) seg) ∧
    New latinLower sampleWalk = (some sampleCatalog, none) := by
  have hstore : ∀ (e : WalkEntry) (file : String), e.walkErr = none → e.readErr = none →
      e.isDir = false → e.name = file ++ ".gitignore" →
      visit lower m e = .ok (store lower m e) ∧
      Get lower (store lower m e) file = (some (templateOf lower e), none) ∧
      (templateOf lower e).Name = file ∧
      templateOf lower e ∈ GetByCategory (store lower m e) (categoryOf e) := by
    intro e file hw hr hd hname
    have hq : qualifies e = true := by simp [qualifies, hd, hname, HasSuffix_append]
    have hclean : loadsCleanly e = true := by simp [loadsCleanly, hw, hr]
    have hn : TrimSuffix e.name ".gitignore" = file := by rw [hname, TrimSuffix_append]
    refine ⟨?_, ?_, ?_, ?_⟩
    · rw [visit_of_clean lower m e hclean]
      simp [hq]
    · apply Get_of_mapGet
      have : ToLower lower file = keyOf lower e := by simp [keyOf, hn]
      rw [this]
      exact mapGet_mapSet_self _ _ _
    · exact hn
    · have : mapGet (store lower m e).categories (categoryOf e) =
          some ((mapGet m.categories (categoryOf e)).getD [] ++ [templateOf lower e]) :=
        mapGet_mapSet_self _ _ _
      simp [GetByCategory, this]
  refine ⟨?_, ?_, ?_, by decide⟩
  · intro e hw hd hs
    simp [visit, hw, hd, hs]
  · intro e file hw hr hd hfile hpath hname
    obtain ⟨h1, h2, h3, h4⟩ := hstore e file hw hr hd hname
    have hcat : categoryOf e = "Root" := by
      have hno : Contains (file ++ ".gitignore") "/" = false := by
        rw [Bool.eq_false_iff, Ne, Contains_slash, String.data_append, List.mem_append]
        rintro (h | h)
        · exact hfile h
        · exact absurd h (by decide)
      simp [categoryOf, hpath, TrimPrefix_append, hno]
    have hcat' : (templateOf lower e).Category = "Root" := hcat
    rw [hcat] at h4
    exact ⟨h1, h2, h3, hcat', h4⟩
  · intro e seg rest file hw hr hd hseg hpath hname
    obtain ⟨h1, h2, h3, h4⟩ := hstore e file hw hr hd hname
    have hcat : categoryOf e = seg := by
      have hyes : Contains (seg ++ "/" ++ rest) "/" = true := by
        rw [Contains_slash]
        simp only [String.data_append, List.mem_append]
        exact Or.inl (Or.inr (by decide))
      simp only [categoryOf, hpath, TrimPrefix_append, hyes, if_true]
      exact Split_head seg rest hseg
    have hcat' : (templateOf lower e).Category = seg := hcat
    rw [hcat] at h4
    exact ⟨h1, h2, h3, hcat', h4⟩

theorem dropWhile_head_not {α : Type} (p : α → Bool) (l : List α) (c : α) (cs : List α)
    (h : l.dropWhile p = c :: cs) : p c = false := by
  induction l with
  | nil => simp at h
  | cons x xs ih =>
    by_cases hx : p x = true
    · rw [List.dropWhile_cons_of_pos hx] at h
      exact ih h
    · rw [List.dropWhile_cons_of_neg hx] at h
      simp only [List.cons.injEq] at h
      rw [← h.1]
      simpa using hx

theorem TrimSpace_last_not_space (s : String) (pre : List Char) (c : Char)
    (h : (TrimSpace s).data = pre ++ [c]) : isSpace c = false := by
  have hrev : ((s.data.dropWhile isSpace).reverse.dropWhile isSpace) = c :: pre.reverse := by
    have := congrArg List.reverse h
    simpa [TrimSpace] using this
  exact dropWhile_head_not isSpace _ c _ hrev

theorem TrimPrefix_marker_ne_empty (line : String)
    (h : HasPrefix (TrimSpace line) "# " = true) :
    TrimPrefix (TrimSpace line) "# " ≠ "" ∧
      "# " ++ TrimPrefix (TrimSpace line) "# " = TrimSpace line := by
  have hp : "# ".data <+: (TrimSpace line).data := by
    simpa [HasPrefix] using h
  obtain ⟨t, ht⟩ := hp
  have hdrop : (TrimSpace line).data.drop "# ".data.length = t := by
    rw [← ht]
    simp
  have htrim : TrimPrefix (TrimSpace line) "# " = ⟨t⟩ := by
    simp only [TrimPrefix, h, if_true, hdrop]
  constructor
  · rw [htrim]
    intro h0
    have ht0 : t = [] := congrArg String.data h0
    rw [ht0] at ht
    have hsp := TrimSpace_last_not_space line ['#'] ' ' (by rw [← ht]; rfl)
    exact absurd hsp (by decide)
  · rw [htrim]
    apply String.ext
    rw [String.data_append, ← ht]

theorem find?_first {α : Type} (p : α → Bool) (pre post : List α) (x : α)
    (hpre : ∀ y ∈ pre, p y = false) (hx : p x = true) :
    (pre ++ x :: post).find? p = some x := by
  induction pre with
  | nil => simp [List.find?_cons, hx]
  | cons y ys ih =>
    rw [List.cons_append, List.find?_cons, hpre y (List.mem_cons_self _ _)]
    exact ih (fun z hz => hpre z (List.mem_cons_of_mem _ hz))

/-- C23, as stated, fails: the content "#build" and a pattern has a first line
that begins with "#" and does not hold "Created by", and its description is
empty; in the content "#a", "# b" the description "b" comes from the second of
the lines that begin with "#". -/
theorem extractDescription_needs_space_after_marker :
    "#build" ∈ Split "#build\n*.o\n" '\n' ∧
    HasPrefix "#build" "#" = true ∧ Contains "#build" "Created by" = false ∧
    extractDescription "#build\n*.o\n" = "" ∧
    extractDescription "#a\n# b\n" = "b" := by
  decide

/-- C23, amended: the description is taken from the first line of the content
that, with white space trimmed, begins with "# " (the comment marker and a
space) and does not hold "Created by": "# " followed by the description is that
trimmed line; and the description is empty exactly when the content has no
such line. -/
theorem extractDescription_first_marked_line (content : String) :
    (extractDescription content = "" ↔
      ∀ line ∈ Split content '\n',
        ¬ (HasPrefix (TrimSpace line) "# " = true ∧
            Contains (TrimSpace line) "Created by" = false)) ∧
    (∀ pre line post, Split content '\n' = pre ++ line :: post →
      (∀ x ∈ pre, ¬ (HasPrefix (TrimSpace x) "# " = true ∧
        Contains (TrimSpace x) "Created by" = false)) →
      HasPrefix (TrimSpace line) "# " = true →
      Contains (TrimSpace line) "Created by" = false →
      "# " ++ extractDescription content = TrimSpace line) := by
  constructor
  · unfold extractDescription
    cases hf : (Split content '\n').find?
        (fun line => HasPrefix (TrimSpace line) "# " && !Contains (TrimSpace line) "Created by") with
    | none =>
      have hall := List.find?_eq_none.mp hf
      simp only [true_iff]
      intro line hline hboth
      apply hall line hline
      simp [hboth.1, hboth.2]
    | some line =>
      have hmem := List.mem_of_find?_eq_some hf
      have hp := List.find?_some hf
      simp only [Bool.and_eq_true, Bool.not_eq_true'] at hp
      constructor
      · intro h0
        exact absurd h0 (TrimPrefix_marker_ne_empty line hp.1).1
      · intro hall
        exact absurd hp (hall line hmem)
  · intro pre line post hsplit hpre hmark hcreated
    have hf : (Split content '\n').find?
        (fun line => HasPrefix (TrimSpace line) "# " && !Contains (TrimSpace line) "Created by")
          = some line := by
      rw [hsplit]
      apply find?_first
      · intro y hy
        have := hpre y hy
        cases h1 : HasPrefix (TrimSpace y) "# " with
        | false => simp
        | true =>
          cases h2 : Contains (TrimSpace y) "Created by" with
          | false => exact absurd ⟨h1, h2⟩ this
          | true => simp
      · simp [hmark, hcreated]
    unfold extractDescription
    rw [hf]
    exact (TrimPrefix_marker_ne_empty line hmark).2

/-! ## Pattern lines of a request -/

theorem emitted_append (xs ys : List String) :
    ∀ seen, emitted seen (xs ++ ys) = emitted seen xs ++ emitted (seenAfter seen xs) ys := by
  induction xs with
  | nil =>
    intro seen
    simp [emitted, seenAfter]
  | cons line rest ih =>
    intro seen
    rw [List.cons_append]
    cases h1 : isCommentOrBlank line with
    | true =>
      rw [emitted_cons_comment h1, emitted_cons_comment h1, seenAfter_cons_comment h1, ih]
      simp
    | false =>
      by_cases h2 : TrimSpace line ∈ seen
      · rw [emitted_cons_seen h1 h2, emitted_cons_seen h1 h2, seenAfter_cons_seen h1 h2, ih]
      · rw [emitted_cons_new h1 h2, emitted_cons_new h1 h2, seenAfter_cons_new h1 h2, ih]
        simp

theorem allLines_sections (ts : List Template) :
    ∀ seen, allLines (sections seen ts) = emitted seen (contentLines ts) := by
  induction ts with
  | nil =>
    intro seen
    simp [sections, allLines, contentLines, emitted]
  | cons t ts ih =>
    intro seen
    simp only [sections, allLines, contentLines, emitted_append, ih]

theorem filter_isPattern_emitted (lines : List String) :
    ∀ seen, (emitted seen lines).filter isPattern =
      (dedupFirst (lines.filter isPattern)).filter (fun l => decide (TrimSpace l ∉ seen)) := by
  induction lines with
  | nil =>
    intro seen
    simp [emitted, dedupFirst]
  | cons line rest ih =>
    intro seen
    cases h1 : isCommentOrBlank line with
    | true =>
      have hp : isPattern line = false := by simp [isPattern, h1]
      rw [emitted_cons_comment h1, List.filter_cons_of_neg (by simp [hp]),
        List.filter_cons_of_neg (by simp [hp]), ih]
    | false =>
      have hp : isPattern line = true := by simp [isPattern, h1]
      rw [List.filter_cons_of_pos hp]
      simp only [dedupFirst]
      by_cases h2 : TrimSpace line ∈ seen
      · rw [emitted_cons_seen h1 h2, ih, List.filter_cons_of_neg (by simp [h2]),
          List.filter_filter]
        apply List.filter_congr
        intro x _
        by_cases hx : TrimSpace x ∈ seen
        · simp [hx]
        · have : TrimSpace x ≠ TrimSpace line := fun h => hx (h ▸ h2)
          simp [hx, this]
      · rw [emitted_cons_new h1 h2, List.filter_cons_of_pos hp, ih,
          List.filter_cons_of_pos (by simp [h2]), List.filter_filter]
        congr 1
        apply List.filter_congr
        intro x _
        simp only [List.mem_cons, not_or, Bool.decide_and, Bool.and_comm]

/-- C26: when Combine succeeds, the pattern lines written in the sections, in
order and untrimmed, are the first-occurrence deduplication by trimmed form of
the pattern lines of the contents of the requested templates taken in the order
of the request. -/
theorem Combine_patterns_first_occurrence (lower : Char → Char) (m : Manager)
    (names : List String) (h : (Combine lower m names).2 = none) :
    ∃ ts, List.Forall₂ (fun n t => mapGet m.templates (ToLower lower n) = some t) names ts ∧
      (Combine lower m names).1 =
        combineHeader names ++ concat ((sections [] ts).map sectionText) ∧
      (allLines (sections [] ts)).filter isPattern =
        dedupFirst ((contentLines ts).filter isPattern) := by
  obtain ⟨ts, hr, hc⟩ := Combine_of_success lower m names h
  refine ⟨ts, resolveAll_forall₂ lower m names ts hr, by rw [hc], ?_⟩
  rw [allLines_sections, filter_isPattern_emitted]
  simp

/-- Witness of C26 on the request Go, Python, Go. -/
theorem Combine_patterns_first_occurrence_witness :
    (∃ ts, List.Forall₂ (fun n t => mapGet goPython.templates (ToLower latinLower n) = some t)
        ["Go", "Python", "Go"] ts ∧
      (Combine latinLower goPython ["Go", "Python", "Go"]).1 =
        combineHeader ["Go", "Python", "Go"] ++ concat ((sections [] ts).map sectionText) ∧
      (allLines (sections [] ts)).filter isPattern =
        dedupFirst ((contentLines ts).filter isPattern)) ∧
    dedupFirst ((contentLines [goTemplate, pythonTemplate, goTemplate]).filter isPattern) =
      ["*.exe", "*.o", "*.pyc", "__pycache__/"] :=
  ⟨Combine_patterns_first_occurrence latinLower goPython ["Go", "Python", "Go"] (by decide),
    by decide⟩

/-! ## The two indexes -/

theorem mapSet_length_of_not_mem {α : Type} (m : List (String × α)) (k : String) (v : α)
    (h : k ∉ m.map Prod.fst) : (mapSet m k v).length = m.length + 1 := by
  induction m with
  | nil => simp [mapSet]
  | cons q rest ih =>
    obtain ⟨k', v'⟩ := q
    simp only [List.map_cons, List.mem_cons, not_or] at h
    have hk : k' ≠ k := fun h' => h.1 h'.symm
    simp [mapSet, hk, ih h.2]

theorem sumLengths_append_one (cats : List (String × List Template)) (c : String)
    (t : Template) :
    sumLengths (mapSet cats c ((mapGet cats c).getD [] ++ [t])) = sumLengths cats + 1 := by
  induction cats with
  | nil => simp [mapSet, mapGet, sumLengths]
  | cons q rest ih =>
    obtain ⟨c', l'⟩ := q
    by_cases hc : c' = c
    · simp only [mapSet, mapGet, hc, if_true, sumLengths, List.map_cons, List.sum_cons,
        Option.getD_some, List.length_append, List.length_singleton]
      push_cast
      omega
    · simp only [sumLengths] at ih
      simp only [mapSet, mapGet, hc, if_false, sumLengths, List.map_cons, List.sum_cons, ih]
      omega

theorem store_indexesAgree (lower : Char → Char) (m : Manager) (e : WalkEntry)
    (hm : IndexesAgree lower m) (hk : keyOf lower e ∉ m.templates.map Prod.fst) :
    IndexesAgree lower (store lower m e) := by
  obtain ⟨h1, h2⟩ := hm
  have hkeep : ∀ T, mapGet m.templates (ToLower lower T.Name) = some T →
      mapGet (store lower m e).templates (ToLower lower T.Name) = some T := by
    intro T hT
    have hne : keyOf lower e ≠ ToLower lower T.Name := by
      intro heq
      exact hk (heq ▸ mem_keys_of_mapGet _ _ _ hT)
    show mapGet (mapSet m.templates (keyOf lower e) _) _ = _
    rw [mapGet_mapSet_ne _ _ _ _ hne]
    exact hT
  have hnew : mapGet (store lower m e).templates (ToLower lower (templateOf lower e).Name) =
      some (templateOf lower e) := mapGet_mapSet_self _ _ _
  constructor
  · intro p hp T hT
    rcases mem_mapSet _ _ _ p hp with h | h
    · subst h
      rcases List.mem_append.mp hT with hT | hT
      · cases hg : mapGet m.categories (categoryOf e) with
        | none => simp [hg] at hT
        | some l =>
          simp only [hg, Option.getD_some] at hT
          exact hkeep T (h1 _ (mem_of_mapGet _ _ _ hg) T hT)
      · simp only [List.mem_singleton] at hT
        subst hT
        exact hnew
    · exact hkeep T (h1 p h T hT)
  · show sumLengths (mapSet m.categories (categoryOf e) _) =
      ((mapSet m.templates (keyOf lower e) (templateOf lower e)).length : Int)
    rw [sumLengths_append_one, mapSet_length_of_not_mem _ _ _ hk, h2]
    push_cast
    rfl

theorem loadAll_indexesAgree (lower : Char → Char) (walk : List WalkEntry) :
    ∀ m, IndexesAgree lower m →
      ((walk.filter qualifies).map (keyOf lower)).Nodup →
      (∀ e ∈ walk, qualifies e = true → keyOf lower e ∉ m.templates.map Prod.fst) →
      IndexesAgree lower (loadAll lower m walk) := by
  induction walk with
  | nil =>
    intro m hm _ _
    simpa [loadAll] using hm
  | cons e rest ih =>
    intro m hm hnd hfresh
    rw [loadAll_cons]
    by_cases hq : qualifies e = true
    · simp only [hq, if_true]
      rw [List.filter_cons_of_pos hq, List.map_cons, List.nodup_cons] at hnd
      apply ih _ (store_indexesAgree lower m e hm (hfresh e (List.mem_cons_self _ _) hq)) hnd.2
      intro e' he' hq' hmem
      rcases mem_keys_mapSet _ _ _ _ hmem with h | h
      · exact hnd.1 (h ▸ List.mem_map.mpr ⟨e', List.mem_filter.mpr ⟨he', hq'⟩, rfl⟩)
      · exact hfresh e' (List.mem_cons_of_mem _ he') hq' h
    · simp only [hq]
      rw [List.filter_cons_of_neg hq] at hnd
      exact ih m hm hnd (fun e' he' => hfresh e' (List.mem_cons_of_mem _ he'))

/-- C28, as stated, fails: the loader builds `twoGoCatalog` from
Global/go.gitignore and Go.gitignore; the list of the category Global holds the
template named "go", Get of "go" returns the template of Go.gitignore, another
one, and the category lists hold two templates while Count is one. -/
theorem category_index_keeps_overwritten_template :
    New latinLower twoGoWalk = (some twoGoCatalog, none) ∧
    templateOf latinLower lowerGoEntry ∈ GetByCategory twoGoCatalog "Global" ∧
    Get latinLower twoGoCatalog (templateOf latinLower lowerGoEntry).Name =
      (some goTemplate, none) ∧
    goTemplate ≠ templateOf latinLower lowerGoEntry ∧
    sumLengths twoGoCatalog.categories = 2 ∧ Count twoGoCatalog = 1 := by
  decide

/-- C28, amended: after a successful load of a walk no two pattern files of
which have the same lowercase name, for every category and every template T of
its list Get of T.Name succeeds and returns T, and the lengths of the category
lists add up to Count. -/
theorem load_indexes_agree (lower : Char → Char) (walk : List WalkEntry) (m : Manager)
    (h : New lower walk = (some m, none))
    (hnd : ((walk.filter qualifies).map (keyOf lower)).Nodup) :
    (∀ c, ∀ T ∈ GetByCategory m c, Get lower m T.Name = (some T, none)) ∧
    sumLengths m.categories = Count m := by
  have hagree : IndexesAgree lower m := by
    rw [New_ok lower walk m h]
    apply loadAll_indexesAgree lower walk _ _ hnd
    · intro e _ _
      simp
    · exact ⟨by simp, by simp [sumLengths]⟩
  refine ⟨?_, hagree.2⟩
  intro c T hT
  cases hg : mapGet m.categories c with
  | none => simp [GetByCategory, hg] at hT
  | some l =>
    simp only [GetByCategory, hg, Option.getD_some] at hT
    exact Get_of_mapGet lower m T.Name T (hagree.1 _ (mem_of_mapGet _ _ _ hg) T hT)

/-- Witness of C28 amended on the catalog of `sampleWalk`. -/
theorem load_indexes_agree_witness :
    (∀ c, ∀ T ∈ GetByCategory sampleCatalog c,
      Get latinLower sampleCatalog T.Name = (some T, none)) ∧
    sumLengths sampleCatalog.categories = Count sampleCatalog :=
  load_indexes_agree latinLower sampleWalk sampleCatalog (by decide) (by decide)

/-! ## Search and substrings -/

theorem Contains_iff_infixOf (s sub : String) :
    Contains s sub = true ↔ sub.data <:+: s.data := by
  unfold Contains
  rw [List.any_eq_true, List.infix_iff_prefix_suffix]
  constructor
  · rintro ⟨t, ht, hp⟩
    exact ⟨t, List.isPrefixOf_iff_prefix.mp hp, (List.mem_tails _ _).mp ht⟩
  · rintro ⟨t, hp, ht⟩
    exact ⟨t, (List.mem_tails _ _).mpr ht, List.isPrefixOf_iff_prefix.mpr hp⟩

theorem Contains_trans (a b c : String) (hab : Contains a b = true)
    (hbc : Contains b c = true) : Contains a c = true := by
  rw [Contains_iff_infixOf] at *
  exact List.IsInfix.trans hbc hab

/-- C29: when the lowercase form of q' is a substring of the lowercase form of
q, every template in the result of Search for q is in the result of Search
for q'. -/
theorem Search_monotone (lower : Char → Char) (m : Manager) (q q' : String)
    (h : Contains (ToLower lower q) (ToLower lower q') = true) :
    ∀ T ∈ Search lower m q, T ∈ Search lower m q' := by
  intro T hT
  unfold Search at hT ⊢
  rw [mem_foldl_searchStep] at hT ⊢
  rcases hT with hT | ⟨hmem, hmatch⟩
  · simp at hT
  · refine Or.inr ⟨hmem, ?_⟩
    rcases hmatch with h1 | h1 | ⟨tag, htag, h1⟩ | h1
    · exact Or.inl (Contains_trans _ _ _ h1 h)
    · exact Or.inr (Or.inl (Contains_trans _ _ _ h1 h))
    · exact Or.inr (Or.inr (Or.inl ⟨tag, htag, Contains_trans _ _ _ h1 h⟩))
    · exact Or.inr (Or.inr (Or.inr (Contains_trans _ _ _ h1 h)))

/-- Witness of C29 on the queries "Global" and "LOB". -/
theorem Search_monotone_witness :
    (∀ T ∈ Search latinLower sampleCatalog "Global", T ∈ Search latinLower sampleCatalog "LOB") ∧
    Search latinLower sampleCatalog "Global" = [vimTemplate] :=
  ⟨Search_monotone latinLower sampleCatalog "Global" "LOB" (by decide), by decide⟩

end Gitignore
